import Mathlib

/-!
# `st::SegmentTree<T>`: a shallow embedding and its verification

Source files embedded here: `segment_tree/segment_tree.h`, `segment_tree/iterator.h`
(and the brute-force `accumulate` of `testing/segment_tree_tests.cpp`).

## Modelling conventions

* The class is a template over `T`.  Every definition below is generic in `T` and asks
  only for the operators the C++ body uses (`+`, the literal `0`, `==`, `<=`, the
  conversion of an `int` to `T`).  The theorems that equate a result with a brute-force
  sum ask for `+`/`0` to form a monoid (associative, `0` neutral); this covers mathematical
  and wrapping integers.  The `+` of `float` is not associative: `float` is modelled below
  on its integer values, and there the sum kept in a node can differ from the brute-force
  sum of the elements it covers.
* A tree object is the value of its three members.  `operator=` takes the target object
  and the argument; the argument is the target itself when the members coincide.
* `int` indices are modelled by `Int`.  Index arithmetic is not wrapped: the development
  assumes that `4 * n_` is representable in an `int`.  `/` on `int` truncates towards zero,
  hence `Int.tdiv`.
* Memory is explicit.  A `Heap T` is the list of the blocks obtained from `new T[k]`;
  a block is a list of slots, each slot either holding a value (`some x`) or being
  indeterminate (`none`, never written since the allocation).  A `Ptr` is a block
  number (or `nullptr`) and an offset.  Every function that mutates memory passes the heap
  explicitly and returns the new one.
* Copying a slot to another slot (`dst[i] = src[i]` in the copy constructor and in
  `operator=`) transfers the slot as it is, indeterminate or not; only the use of a slot
  in an expression (`+`, `==`, a returned value) needs it to hold a value.
* The destructor is not modelled: blocks are never released.
* A result `none` stands for behaviour the C++ standard leaves undefined or for an
  exception: an access outside a block or through `nullptr`, the use of an indeterminate
  value in an expression, `new T[k]` with `k < 0`, or a recursion/loop that exceeds its
  fuel.  Recursive functions take a fuel argument; the public entry points pass `n_`,
  and the theorems show that this amount always suffices on trees made by the class.
-/

namespace st

/-! ## Memory -/

/-- A raw pointer `T*`: the block pointed into (`none` is `nullptr`) and the offset in it. -/
structure Ptr where
  blk : Option Nat
  off : Int
deriving DecidableEq

/-- Pointer arithmetic `p + x`. -/
def Ptr.add (p : Ptr) (x : Int) : Ptr := ⟨p.blk, p.off + x⟩

/-- The contents of one `new T[k]` block; `none` is an indeterminate slot. -/
abbrev Block (T : Type) := List (Option T)

/-- The free store: block number `a` is the `a`-th entry. -/
abbrev Heap (T : Type) := List (Block T)

/-- The expression `new T[k]`: fails on a negative length, otherwise appends a fresh block of
`k` indeterminate slots and returns a pointer to its first slot. -/
def Heap.alloc {T : Type} (h : Heap T) (k : Int) : Option (Heap T × Ptr) :=
  if k < 0 then none
  else some (h ++ [List.replicate k.toNat none], ⟨some h.length, 0⟩)

/-- The slot `*p` as raw storage (used when a slot is copied to another slot);
`none` when `p` does not point into a block. -/
def Heap.slot {T : Type} (h : Heap T) (p : Ptr) : Option (Option T) :=
  match p.blk with
  | none => none
  | some a =>
    match h[a]? with
    | none => none
    | some b => if p.off < 0 then none else b[p.off.toNat]?

/-- The value of `*p` used in an expression; `none` when `p` is out of bounds or the slot is
indeterminate. -/
def Heap.load {T : Type} (h : Heap T) (p : Ptr) : Option T :=
  (h.slot p).join

/-- The assignment `*p = s`; `none` when `p` does not point into a block. -/
def Heap.store {T : Type} (h : Heap T) (p : Ptr) (s : Option T) : Option (Heap T) :=
  match p.blk with
  | none => none
  | some a =>
    match h[a]? with
    | none => none
    | some b =>
      if 0 ≤ p.off ∧ p.off.toNat < b.length then some (h.set a (b.set p.off.toNat s))
      else none

/-! ## `iterator.h`: `Iterator<T>` -/

/-- The class `Iterator<T>`: a wrapped `T*`. -/
structure Iterator where
  p_it_ : Ptr
deriving DecidableEq

/-- The member `operator==`. -/
def Iterator.op_eq (a rhs : Iterator) : Bool := decide (a.p_it_ = rhs.p_it_)

/-- The member `operator!=`. -/
def Iterator.op_ne (a rhs : Iterator) : Bool := !(a.op_eq rhs)

/-- The member `operator+(const int x)`. -/
def Iterator.op_add (a : Iterator) (x : Int) : Iterator := ⟨a.p_it_.add x⟩

/-- The member `operator-(const int x)`. -/
def Iterator.op_sub (a : Iterator) (x : Int) : Iterator := ⟨a.p_it_.add (-x)⟩

/-- The member `operator*()`. -/
def Iterator.op_deref {T : Type} (h : Heap T) (a : Iterator) : Option T := h.load a.p_it_

/-- The member prefix `operator++()`: the iterator after the step. -/
def Iterator.op_inc (a : Iterator) : Iterator := ⟨a.p_it_.add 1⟩

/-- The member postfix `operator++(int)`: `Iterator temp(*this); ++*this; return temp;`.
The result is the returned copy and the iterator after the step. -/
def Iterator.op_post_inc (a : Iterator) : Iterator × Iterator := (a, a.op_inc)

/-- The member prefix `operator--()`: the iterator after the step. -/
def Iterator.op_dec (a : Iterator) : Iterator := ⟨a.p_it_.add (-1)⟩

/-- The member postfix `operator--(int)`: `Iterator temp(*this); --*this; return temp;`.
The result is the returned copy and the iterator after the step. -/
def Iterator.op_post_dec (a : Iterator) : Iterator × Iterator := (a, a.op_dec)

/-! ## `iterator.h`: `ReverseIterator<T>` -/

/-- The conversion of a pointer to `bool`: `false` exactly for `nullptr`. -/
def Ptr.to_bool (p : Ptr) : Bool := !(decide (p.blk = none ∧ p.off = 0))

/-- The class `ReverseIterator<T>`: a wrapped `T*`. -/
structure ReverseIterator where
  p_it_ : Ptr
deriving DecidableEq

/-- The member `operator==`. -/
def ReverseIterator.op_eq (a rhs : ReverseIterator) : Bool := decide (a.p_it_ = rhs.p_it_)

/-- The member `operator!=`. -/
def ReverseIterator.op_ne (a rhs : ReverseIterator) : Bool := !(a.op_eq rhs)

/-- The member `bool operator+(const int x)`: `return ((*this).p_it_ - x);`, the shifted
pointer converted to the declared return type `bool`. -/
def ReverseIterator.op_add (a : ReverseIterator) (x : Int) : Bool := (a.p_it_.add (-x)).to_bool

/-- The member `bool operator-(const int x) const`: `return ((*this).p_it_ + x);`, the
shifted pointer converted to the declared return type `bool`. -/
def ReverseIterator.op_sub (a : ReverseIterator) (x : Int) : Bool := (a.p_it_.add x).to_bool

/-- The member `operator*()`. -/
def ReverseIterator.op_deref {T : Type} (h : Heap T) (a : ReverseIterator) : Option T :=
  h.load a.p_it_

/-- The member prefix `operator++()`: `--p_it_`. -/
def ReverseIterator.op_inc (a : ReverseIterator) : ReverseIterator := ⟨a.p_it_.add (-1)⟩

/-- The member prefix `operator--()`: `++p_it_`. -/
def ReverseIterator.op_dec (a : ReverseIterator) : ReverseIterator := ⟨a.p_it_.add 1⟩

/-- The member postfix `operator++(int)`: `ReverseIterator temp(*this); --*this;
return temp;`.  The step is the prefix `operator--` of this class.  The result is the
returned copy and the iterator after the step. -/
def ReverseIterator.op_post_inc (a : ReverseIterator) : ReverseIterator × ReverseIterator :=
  (a, a.op_dec)

/-- The member postfix `operator--(int)`: `ReverseIterator temp(*this); ++*this;
return temp;`.  The step is the prefix `operator++` of this class.  The result is the
returned copy and the iterator after the step. -/
def ReverseIterator.op_post_dec (a : ReverseIterator) : ReverseIterator × ReverseIterator :=
  (a, a.op_inc)

/-! ## `segment_tree.h`: `SegmentTree<T>` -/

/-- The data members of `SegmentTree<T>`. -/
structure SegmentTree where
  cont_ : Ptr
  tree_ : Ptr
  n_ : Int
deriving DecidableEq

/-- The private member `build(currentVertice, rangeLeft, rangeRight)`. -/
def build {T : Type} [Add T] (t : SegmentTree) :
    Nat → Heap T → Int → Int → Int → Option (Heap T)
  | 0, _, _, _, _ => none
  | fuel + 1, h, currentVertice, rangeLeft, rangeRight =>
    if rangeLeft = rangeRight then
      (h.load (t.cont_.add rangeLeft)).bind fun x =>
      h.store (t.tree_.add currentVertice) (some x)
    else
      let mid := rangeLeft + (rangeRight - rangeLeft).tdiv 2
      (build t fuel h (currentVertice * 2 + 1) rangeLeft mid).bind fun h1 =>
      (build t fuel h1 (currentVertice * 2 + 2) (mid + 1) rangeRight).bind fun h2 =>
      (h2.load (t.tree_.add (currentVertice * 2 + 1))).bind fun a =>
      (h2.load (t.tree_.add (currentVertice * 2 + 2))).bind fun b =>
      h2.store (t.tree_.add currentVertice) (some (a + b))

/-- The private member `sum_util(queryLeft, queryRight, currentVertice, rangeLeft, rangeRight)`
(`queryRight` inclusive). -/
def sum_util {T : Type} [Add T] [Zero T] (t : SegmentTree) (h : Heap T) :
    Nat → Int → Int → Int → Int → Int → Option T
  | 0, _, _, _, _, _ => none
  | fuel + 1, queryLeft, queryRight, currentVertice, rangeLeft, rangeRight =>
    if queryLeft > queryRight then some 0
    else if queryLeft = rangeLeft ∧ queryRight = rangeRight then
      h.load (t.tree_.add currentVertice)
    else
      let mid := rangeLeft + (rangeRight - rangeLeft).tdiv 2
      (sum_util t h fuel queryLeft (min queryRight mid)
        (currentVertice * 2 + 1) rangeLeft mid).bind fun a =>
      (sum_util t h fuel (max queryLeft (mid + 1)) queryRight
        (currentVertice * 2 + 2) (mid + 1) rangeRight).bind fun b =>
      some (a + b)

/-- The private member `update_util(index, newVal, currentVertice, rangeLeft, rangeRight)`. -/
def update_util {T : Type} [Add T] (t : SegmentTree) (index : Int) (newVal : T) :
    Nat → Heap T → Int → Int → Int → Option (Heap T)
  | 0, _, _, _, _ => none
  | fuel + 1, h, currentVertice, rangeLeft, rangeRight =>
    if rangeLeft = rangeRight then
      h.store (t.tree_.add currentVertice) (some newVal)
    else
      let mid := rangeLeft + (rangeRight - rangeLeft).tdiv 2
      (if index ≤ mid then
          update_util t index newVal fuel h (currentVertice * 2 + 1) rangeLeft mid
        else
          update_util t index newVal fuel h (currentVertice * 2 + 2) (mid + 1) rangeRight).bind
        fun h1 =>
      (h1.load (t.tree_.add (currentVertice * 2 + 1))).bind fun a =>
      (h1.load (t.tree_.add (currentVertice * 2 + 2))).bind fun b =>
      h1.store (t.tree_.add currentVertice) (some (a + b))

/-- The member `empty()`. -/
def SegmentTree.empty (t : SegmentTree) : Bool := decide (t.n_ = 0)

/-- The member `size()`. -/
def SegmentTree.size (t : SegmentTree) : Int := t.n_

/-- The member `begin()`. -/
def SegmentTree.begin (t : SegmentTree) : Iterator := ⟨t.cont_⟩

/-- The member `end()`. -/
def SegmentTree.end_ (t : SegmentTree) : Iterator := ⟨t.cont_.add t.n_⟩

/-- The member `sum(queryLeft, queryRight)` (half-open range). -/
def sum {T : Type} [Add T] [Zero T] (h : Heap T) (t : SegmentTree)
    (queryLeft queryRight : Int) : Option T :=
  if t.n_ > 0 ∧ queryLeft < queryRight then
    sum_util t h t.n_.toNat queryLeft (queryRight - 1) 0 0 (t.n_ - 1)
  else some 0

/-- The member `update(index, newVal)`.  The guard compares the index, converted to `T`,
with the new value. -/
def update {T : Type} [Add T] [IntCast T] [LE T] [DecidableRel (LE.le : T → T → Prop)]
    (h : Heap T) (t : SegmentTree) (index : Int) (newVal : T) : Option (Heap T) :=
  if t.n_ > 0 ∧ (index : T) ≤ newVal then
    (h.store (t.cont_.add index) (some newVal)).bind fun h1 =>
    update_util t index newVal t.n_.toNat h1 0 0 (t.n_ - 1)
  else some h

/-- The loop of `count`: `while (first != last) { if (*first == key) ++count; ++first; }`. -/
def count_loop {T : Type} [DecidableEq T] (h : Heap T) (last : Iterator) (key : T) :
    Nat → Iterator → Int → Option Int
  | 0, first, count => if first.op_ne last then none else some count
  | fuel + 1, first, count =>
    if first.op_ne last then
      (first.op_deref h).bind fun x =>
      count_loop h last key fuel first.op_inc (if x = key then count + 1 else count)
    else some count

/-- The member `count(key)`. -/
def count {T : Type} [DecidableEq T] (h : Heap T) (t : SegmentTree) (key : T) : Option Int :=
  count_loop h t.end_ key t.n_.toNat t.begin 0

/-- The loop of `find`: `while (first != last && *first != key) ++first;`. -/
def find_loop {T : Type} [DecidableEq T] (h : Heap T) (last : Iterator) (key : T) :
    Nat → Iterator → Option Iterator
  | 0, first => if first.op_ne last then none else some first
  | fuel + 1, first =>
    if first.op_ne last then
      (first.op_deref h).bind fun x =>
      if x ≠ key then find_loop h last key fuel first.op_inc else some first
    else some first

/-- The member `find(key)`. -/
def find {T : Type} [DecidableEq T] (h : Heap T) (t : SegmentTree) (key : T) :
    Option Iterator :=
  find_loop h t.end_ key t.n_.toNat t.begin

/-- The member `rbegin()`: `reverse_iterator(cont_ + n_ - 1)`. -/
def SegmentTree.rbegin (t : SegmentTree) : ReverseIterator := ⟨(t.cont_.add t.n_).add (-1)⟩

/-- The member `rend()`: `reverse_iterator(cont_ - 1)`. -/
def SegmentTree.rend (t : SegmentTree) : ReverseIterator := ⟨t.cont_.add (-1)⟩

/-- The loop of `lower_bound`: `while (first != last && *first < key) ++first;`. -/
def lower_bound_loop {T : Type} [LT T] [DecidableRel (LT.lt : T → T → Prop)] (h : Heap T)
    (last : Iterator) (key : T) : Nat → Iterator → Option Iterator
  | 0, first => if first.op_ne last then none else some first
  | fuel + 1, first =>
    if first.op_ne last then
      (first.op_deref h).bind fun x =>
      if x < key then lower_bound_loop h last key fuel first.op_inc else some first
    else some first

/-- The member `lower_bound(key)`. -/
def lower_bound {T : Type} [LT T] [DecidableRel (LT.lt : T → T → Prop)] (h : Heap T)
    (t : SegmentTree) (key : T) : Option Iterator :=
  lower_bound_loop h t.end_ key t.n_.toNat t.begin

/-- The loop of `upper_bound`: `while (first != last && *first <= key) ++first;`. -/
def upper_bound_loop {T : Type} [LE T] [DecidableRel (LE.le : T → T → Prop)] (h : Heap T)
    (last : Iterator) (key : T) : Nat → Iterator → Option Iterator
  | 0, first => if first.op_ne last then none else some first
  | fuel + 1, first =>
    if first.op_ne last then
      (first.op_deref h).bind fun x =>
      if x ≤ key then upper_bound_loop h last key fuel first.op_inc else some first
    else some first

/-- The member `upper_bound(key)`. -/
def upper_bound {T : Type} [LE T] [DecidableRel (LE.le : T → T → Prop)] (h : Heap T)
    (t : SegmentTree) (key : T) : Option Iterator :=
  upper_bound_loop h t.end_ key t.n_.toNat t.begin

/-- The member `equal_range(key)`: `std::make_pair(lower_bound(key), upper_bound(key))`. -/
def equal_range {T : Type} [LT T] [DecidableRel (LT.lt : T → T → Prop)] [LE T]
    [DecidableRel (LE.le : T → T → Prop)] (h : Heap T) (t : SegmentTree) (key : T) :
    Option (Iterator × Iterator) :=
  (lower_bound h t key).bind fun lo =>
  (upper_bound h t key).bind fun hi =>
  some (lo, hi)

/-- The constructor `SegmentTree()`. -/
def SegmentTree.new : SegmentTree := ⟨⟨none, 0⟩, ⟨none, 0⟩, 0⟩

/-- The two copy loops of the copy constructor and of `operator=`:
`for (int i = 0; i < n; i++) dst[i] = src[i];`. -/
def copy_loop {T : Type} (dst src : Ptr) (n : Int) : Nat → Heap T → Int → Option (Heap T)
  | 0, h, i => if i < n then none else some h
  | fuel + 1, h, i =>
    if i < n then
      (h.slot (src.add i)).bind fun s =>
      (h.store (dst.add i) s).bind fun h1 =>
      copy_loop dst src n fuel h1 (i + 1)
    else some h

/-- The copy constructor `SegmentTree(const SegmentTree &x)`. -/
def SegmentTree.copy {T : Type} (h : Heap T) (x : SegmentTree) :
    Option (Heap T × SegmentTree) :=
  (h.alloc x.n_).bind fun (h1, c) =>
  (h1.alloc (4 * x.n_)).bind fun (h2, tr) =>
  let n := x.n_
  (copy_loop c x.cont_ n n.toNat h2 0).bind fun h3 =>
  (copy_loop tr x.tree_ (4 * n) (4 * n).toNat h3 0).bind fun h4 =>
  some (h4, ⟨c, tr, n⟩)

/-- The member `operator=(const SegmentTree &x)` applied to the target object `this`.
The statements run in source order: `cont_ = new T[x.n_]; tree_ = new T[4 * x.n_];
n_ = x.n_;` and then the two copy loops, which read `x.cont_[i]` and `x.tree_[i]`.  The old
blocks of the target are not released.  When `x` is the target object itself (`a = a`), the
loops read the members that were just overwritten, that is the fresh blocks.  Objects are
values here, so `x` is taken to be the target itself exactly when all members coincide: two
distinct objects never share their blocks, and for trees without blocks (`n_ == 0`) both
readings give the same result. -/
def SegmentTree.assign {T : Type} (h : Heap T) (this x : SegmentTree) :
    Option (Heap T × SegmentTree) :=
  (h.alloc x.n_).bind fun (h1, c) =>
  (h1.alloc (4 * x.n_)).bind fun (h2, tr) =>
  let n := x.n_
  let x_cont := if this = x then c else x.cont_
  let x_tree := if this = x then tr else x.tree_
  (copy_loop c x_cont n n.toNat h2 0).bind fun h3 =>
  (copy_loop tr x_tree (4 * n) (4 * n).toNat h3 0).bind fun h4 =>
  some (h4, ⟨c, tr, n⟩)

/-- The loop of `SegmentTree(const T *input, int n)`:
`for (int i = 0; i < n; ++i) cont_[i] = input[i];`.  The caller's array is the list
`input`; reading past its end is out of bounds. -/
def input_loop {T : Type} (cont : Ptr) (input : List T) (n : Int) :
    Nat → Heap T → Int → Option (Heap T)
  | 0, h, i => if i < n then none else some h
  | fuel + 1, h, i =>
    if i < n then
      (if i < 0 then none else input[i.toNat]?).bind fun x =>
      (h.store (cont.add i) (some x)).bind fun h1 =>
      input_loop cont input n fuel h1 (i + 1)
    else some h

/-- The constructor `SegmentTree(const T *input, int n)`. -/
def SegmentTree.from_array {T : Type} [Add T] (h : Heap T) (input : List T) (n : Int) :
    Option (Heap T × SegmentTree) :=
  (h.alloc n).bind fun (h1, c) =>
  (h1.alloc (4 * n)).bind fun (h2, tr) =>
  let t : SegmentTree := ⟨c, tr, n⟩
  (input_loop c input n n.toNat h2 0).bind fun h3 =>
  if t.n_ > 0 then (build t t.n_.toNat h3 0 0 (t.n_ - 1)).bind fun h4 => some (h4, t)
  else some (h3, t)

/-- The loop of the range constructor:
`while (first != last) { cont_[i] = *first; ++first; ++i; }`, the range `[first, last)`
being the list of the values it yields. -/
def range_loop {T : Type} (cont : Ptr) : List T → Heap T → Int → Option (Heap T)
  | [], h, _ => some h
  | x :: rest, h, i =>
    (h.store (cont.add i) (some x)).bind fun h1 => range_loop cont rest h1 (i + 1)

/-- The constructor `SegmentTree(_InputIterator first, _InputIterator last)`; `last - first`
is the length of the range. -/
def SegmentTree.from_range {T : Type} [Add T] (h : Heap T) (range : List T) :
    Option (Heap T × SegmentTree) :=
  let n : Int := range.length
  (h.alloc n).bind fun (h1, c) =>
  (h1.alloc (4 * n)).bind fun (h2, tr) =>
  let t : SegmentTree := ⟨c, tr, n⟩
  (range_loop c range h2 0).bind fun h3 =>
  if t.n_ > 0 then (build t t.n_.toNat h3 0 0 (t.n_ - 1)).bind fun h4 => some (h4, t)
  else some (h3, t)

/-- The helper `accumulate(first, last, init)` of the tests, the brute-force sum:
`while (first != last) { init = init + *first; ++first; }`. -/
def accumulate {T : Type} [Add T] : List T → T → T
  | [], init => init
  | x :: rest, init => accumulate rest (init + x)

/-! ## The element type `float`

The tests and the sample program instantiate `SegmentTree<float>`.  The C++ type `float`
(IEEE 754 binary32) is modelled on its integer values: such a value is an integer with at
most 24 significant bits, and the sum of two of them is their exact sum rounded to 24
significant bits, to nearest, ties to even (overflow to infinity, beyond `2 ^ 128`, is not
modelled). -/

/-- The number of low bits a magnitude `m` loses when it is cut to 24 significant bits. -/
def excess_bits : Nat → Nat → Nat
  | 0, _ => 0
  | fuel + 1, m => if m < 2 ^ 24 then 0 else 1 + excess_bits fuel (m / 2)

/-- The integer `z` rounded to 24 significant bits, to nearest, ties to even. -/
def round24 (z : Int) : Int :=
  let m := z.natAbs
  let e := excess_bits 128 m
  let q := m / 2 ^ e
  let rest := m % 2 ^ e
  let q1 := if 2 * rest > 2 ^ e ∨ (2 * rest = 2 ^ e ∧ q % 2 = 1) then q + 1 else q
  z.sign * ((q1 * 2 ^ e : Nat) : Int)

/-- An integer-valued `float`. -/
structure F32 where
  val : Int
deriving DecidableEq

/-- The operator `+` of `float`: the exact sum, rounded. -/
instance : Add F32 := ⟨fun a b => ⟨round24 (a.val + b.val)⟩⟩

/-- The `float` value `0`. -/
instance : Zero F32 := ⟨⟨0⟩⟩

/-- The conversion of an `int` to `float`, which rounds. -/
instance : IntCast F32 := ⟨fun z => ⟨round24 z⟩⟩

/-- The operator `<=` of `float`. -/
instance : LE F32 := ⟨fun a b => a.val ≤ b.val⟩

instance : DecidableRel (LE.le : F32 → F32 → Prop) :=
  fun a b => inferInstanceAs (Decidable (a.val ≤ b.val))

/-! ## Specification vocabulary -/

/-- The element `cont_[i]` of a tree, read from the heap. -/
def elem {T : Type} (h : Heap T) (t : SegmentTree) (i : Int) : Option T :=
  h.load (t.cont_.add i)

/-- The tree-buffer entry `tree_[i]` of a tree, read from the heap. -/
def treeAt {T : Type} (h : Heap T) (t : SegmentTree) (i : Int) : Option T :=
  h.load (t.tree_.add i)

/-- The elements of the tree `t` in the heap `h` are exactly the sequence `xs`:
`n_` is its length and `cont_[i]` is its `i`-th entry. -/
def Elems {T : Type} (h : Heap T) (t : SegmentTree) (xs : List T) : Prop :=
  t.n_ = xs.length ∧ ∀ i : Nat, i < xs.length → elem h t i = xs[i]?

/-- The brute-force sum of `xs[l], ..., xs[r-1]`, computed with the tests' `accumulate`. -/
def bruteSum {T : Type} [Add T] [Zero T] (xs : List T) (l r : Int) : T :=
  accumulate ((xs.drop l.toNat).take (r.toNat - l.toNat)) 0

/-- The sum of the half-open slice `xs[l..r)` as a list sum. -/
def rsum {T : Type} [Add T] [Zero T] (xs : List T) (l r : Nat) : T :=
  ((xs.drop l).take (r - l)).sum

/-- Node `j` lies in the subtree of the implicit tree rooted at node `v`
(children of `v` are `2 * v + 1` and `2 * v + 2`). -/
inductive InSub : Nat → Nat → Prop
  | root (v : Nat) : InSub v v
  | left {v j : Nat} : InSub (2 * v + 1) j → InSub v j
  | right {v j : Nat} : InSub (2 * v + 2) j → InSub v j

/-- In the tree block `tb`, node `v` covers the inclusive range `[l, r]` of `xs` and the
subtree below it is built: a leaf holds `xs[l]`, an inner node the sum of its two children,
split at `mid = l + (r - l) / 2`.  The last index is the value stored in node `v`. -/
inductive Node {T : Type} [Add T] (tb : Block T) (xs : List T) : Nat → Nat → Nat → T → Prop
  | leaf {v l : Nat} {x : T} : xs[l]? = some x → tb[v]? = some (some x) → Node tb xs v l l x
  | inner {v l r : Nat} {a b : T} : l < r →
      Node tb xs (2 * v + 1) l (l + (r - l) / 2) a →
      Node tb xs (2 * v + 2) (l + (r - l) / 2 + 1) r b →
      tb[v]? = some (some (a + b)) → Node tb xs v l r (a + b)

/-- A node `v` that has to cover `size` elements fits in a tree block of `N` slots: the
subtree below it has height at most `k` and its deepest, rightmost node is below `N`. -/
def Fits (N v size : Nat) : Prop := ∃ k : Nat, size ≤ 2 ^ k ∧ (v + 2) * 2 ^ k ≤ N

/-- The representation invariant: in the heap `h` the tree `t` stores the sequence `xs`.  A
non-empty tree owns two distinct blocks, the element block holding `xs` and a tree block of
`4 * n_` slots whose root node `0` covers `[0, n_ - 1]`. -/
def Valid {T : Type} [Add T] (h : Heap T) (t : SegmentTree) (xs : List T) : Prop :=
  t.n_ = xs.length ∧
  (xs ≠ [] → ∃ (a b : Nat) (tb : Block T) (s : T),
    t.cont_ = ⟨some a, 0⟩ ∧ t.tree_ = ⟨some b, 0⟩ ∧ a ≠ b ∧
    h[a]? = some (xs.map some) ∧ h[b]? = some tb ∧ tb.length = 4 * xs.length ∧
    Node tb xs 0 0 (xs.length - 1) s)

/-- The heap `h` and the tree object `t` are a state the class can produce: `t` was made by
one of the constructors or by `operator=` from another object, possibly followed by calls
of `update`, while the rest of the program changed the heap only outside the two blocks that
`t` owns (the members are private, so no other code writes to them).  A self-assignment
`a = a` is not among the steps: it leaves the tree without its elements. -/
inductive Reachable {T : Type} [Add T] [IntCast T] [LE T]
    [DecidableRel (LE.le : T → T → Prop)] : Heap T → SegmentTree → Prop
  | new (h : Heap T) : Reachable h SegmentTree.new
  | from_array {h h1 : Heap T} {input : List T} {n : Int} {t : SegmentTree} :
      SegmentTree.from_array h input n = some (h1, t) → Reachable h1 t
  | from_range {h h1 : Heap T} {range : List T} {t : SegmentTree} :
      SegmentTree.from_range h range = some (h1, t) → Reachable h1 t
  | copy {h h1 : Heap T} {x t : SegmentTree} :
      Reachable h x → SegmentTree.copy h x = some (h1, t) → Reachable h1 t
  | assign {h h1 : Heap T} {this x t : SegmentTree} :
      Reachable h x → this ≠ x → SegmentTree.assign h this x = some (h1, t) →
      Reachable h1 t
  | update {h h1 : Heap T} {t : SegmentTree} {index : Int} {newVal : T} :
      Reachable h t → update h t index newVal = some h1 → Reachable h1 t
  | frame {h h1 : Heap T} {t : SegmentTree} :
      Reachable h t →
      (∀ a, t.cont_.blk = some a → h1[a]? = h[a]?) →
      (∀ b, t.tree_.blk = some b → h1[b]? = h[b]?) → Reachable h1 t

/-- The number of indices `i` in `[0, n_)` whose element `cont_[i]` equals `key`. -/
def matchCount {T : Type} [DecidableEq T] (h : Heap T) (t : SegmentTree) (key : T) : Nat :=
  ((List.range t.n_.toNat).filter fun i : Nat => decide (elem h t (i : Int) = some key)).length

/-- The nodes of the implicit tree over `n` elements that are reachable from the root:
node `0` covers `[0, n - 1]`, and a node `v` covering `[l, r]` with `l < r` has the children
`2 * v + 1` covering `[l, mid]` and `2 * v + 2` covering `[mid + 1, r]`,
`mid = l + (r - l) / 2`. -/
inductive Covers (n : Nat) : Nat → Nat → Nat → Prop
  | root : Covers n 0 0 (n - 1)
  | left {v l r : Nat} : Covers n v l r → l < r →
      Covers n (2 * v + 1) l (l + (r - l) / 2)
  | right {v l r : Nat} : Covers n v l r → l < r →
      Covers n (2 * v + 2) (l + (r - l) / 2 + 1) r

/-- The indices `i` of the assignments `tree_[i] = ...` executed by
`build(currentVertice, rangeLeft, rangeRight)`, in execution order (same recursion and same
fuel as `build`). -/
def build_writes : Nat → Int → Int → Int → List Int
  | 0, _, _, _ => []
  | fuel + 1, currentVertice, rangeLeft, rangeRight =>
    if rangeLeft = rangeRight then [currentVertice]
    else
      let mid := rangeLeft + (rangeRight - rangeLeft).tdiv 2
      build_writes fuel (currentVertice * 2 + 1) rangeLeft mid ++
        build_writes fuel (currentVertice * 2 + 2) (mid + 1) rangeRight ++ [currentVertice]

/-- The indices `i` of the reads `tree_[i]` executed by
`sum_util(queryLeft, queryRight, currentVertice, rangeLeft, rangeRight)` (same recursion and
same fuel as `sum_util`). -/
def sum_util_reads : Nat → Int → Int → Int → Int → Int → List Int
  | 0, _, _, _, _, _ => []
  | fuel + 1, queryLeft, queryRight, currentVertice, rangeLeft, rangeRight =>
    if queryLeft > queryRight then []
    else if queryLeft = rangeLeft ∧ queryRight = rangeRight then [currentVertice]
    else
      let mid := rangeLeft + (rangeRight - rangeLeft).tdiv 2
      sum_util_reads fuel queryLeft (min queryRight mid)
          (currentVertice * 2 + 1) rangeLeft mid ++
        sum_util_reads fuel (max queryLeft (mid + 1)) queryRight
          (currentVertice * 2 + 2) (mid + 1) rangeRight

/-- The indices `i` of the assignments `tree_[i] = ...` executed by
`update_util(index, newVal, currentVertice, rangeLeft, rangeRight)` (same recursion and same
fuel as `update_util`). -/
def update_util_writes (index : Int) : Nat → Int → Int → Int → List Int
  | 0, _, _, _ => []
  | fuel + 1, currentVertice, rangeLeft, rangeRight =>
    if rangeLeft = rangeRight then [currentVertice]
    else
      let mid := rangeLeft + (rangeRight - rangeLeft).tdiv 2
      (if index ≤ mid then
          update_util_writes index fuel (currentVertice * 2 + 1) rangeLeft mid
        else
          update_util_writes index fuel (currentVertice * 2 + 2) (mid + 1) rangeRight) ++
        [currentVertice]

/-- The indices `i` of the reads `tree_[i]` executed by
`update_util(index, newVal, currentVertice, rangeLeft, rangeRight)`: after the recursive
call, both children of the current node are read. -/
def update_util_reads (index : Int) : Nat → Int → Int → Int → List Int
  | 0, _, _, _ => []
  | fuel + 1, currentVertice, rangeLeft, rangeRight =>
    if rangeLeft = rangeRight then []
    else
      let mid := rangeLeft + (rangeRight - rangeLeft).tdiv 2
      (if index ≤ mid then
          update_util_reads index fuel (currentVertice * 2 + 1) rangeLeft mid
        else
          update_util_reads index fuel (currentVertice * 2 + 2) (mid + 1) rangeRight) ++
        [currentVertice * 2 + 1, currentVertice * 2 + 2]

/-! ## A concrete state, used to instantiate the theorems -/

/-- The tree object made by `SegmentTree<int>(first, last)` on the range `[3, 1, 3]` when the
heap is empty. -/
def sampleTree : SegmentTree := ⟨⟨some 0, 0⟩, ⟨some 1, 0⟩, 3⟩

/-- The heap after that construction: the element block and the tree block (12 slots,
5 of them built). -/
def sampleHeap : Heap Int :=
  [[some 3, some 1, some 3],
   [some 7, some 4, some 3, some 3, some 1, none, none, none, none, none, none, none]]

/-- The tree object made by copying `sampleTree` in `sampleHeap`. -/
def sampleCopy : SegmentTree := ⟨⟨some 2, 0⟩, ⟨some 3, 0⟩, 3⟩

/-- The heap after that copy. -/
def sampleHeapCopied : Heap Int :=
  [[some 3, some 1, some 3],
   [some 7, some 4, some 3, some 3, some 1, none, none, none, none, none, none, none],
   [some 3, some 1, some 3],
   [some 7, some 4, some 3, some 3, some 1, none, none, none, none, none, none, none]]

/-- The tree object made by `SegmentTree<int>(first, last)` on the sorted range
`[2, 3, 3, 3, 4]` when the heap is empty. -/
def sortedTree : SegmentTree := ⟨⟨some 0, 0⟩, ⟨some 1, 0⟩, 5⟩

/-- The heap after that construction. -/
def sortedHeap : Heap Int :=
  [[some 2, some 3, some 3, some 3, some 4],
   [some 15, some 8, some 7, some 5, some 3, some 3, some 4, some 2, some 3, none, none,
    none, none, none, none, none, none, none, none, none]]

/-- The heap after the self-assignment `a = a` of `sampleTree` in `sampleHeap`: the old
blocks are still there, the two fresh blocks hold no values. -/
def sampleHeapSelfAssigned : Heap Int :=
  [[some 3, some 1, some 3],
   [some 7, some 4, some 3, some 3, some 1, none, none, none, none, none, none, none],
   [none, none, none],
   [none, none, none, none, none, none, none, none, none, none, none, none]]

/-- The members of `sampleTree` after the self-assignment `a = a` in `sampleHeap`. -/
def sampleSelfAssigned : SegmentTree := ⟨⟨some 2, 0⟩, ⟨some 3, 0⟩, 3⟩

/-- Four `float` values: `2^26`, `0`, `-2^26`, `1`. -/
def floatElems : List F32 := [⟨67108864⟩, ⟨0⟩, ⟨-67108864⟩, ⟨1⟩]

/-- The tree object made by `SegmentTree<float>(first, last)` on `floatElems` when the heap
is empty. -/
def floatTree : SegmentTree := ⟨⟨some 0, 0⟩, ⟨some 1, 0⟩, 4⟩

/-- The heap after that construction. -/
def floatHeap : Heap F32 :=
  [[some ⟨67108864⟩, some ⟨0⟩, some ⟨-67108864⟩, some ⟨1⟩],
   [some ⟨0⟩, some ⟨67108864⟩, some ⟨-67108864⟩, some ⟨67108864⟩, some ⟨0⟩,
    some ⟨-67108864⟩, some ⟨1⟩, none, none, none, none, none, none, none, none, none]]

/-! ## Memory lemmas -/

theorem load_at {T : Type} (h : Heap T) (b : Nat) (tb : Block T) (hb : h[b]? = some tb)
    (V : Int) (v : Nat) (hV : V = v) :
    h.load ((⟨some b, 0⟩ : Ptr).add V) = (tb[v]?).join := by
  subst hV
  have hn : ¬ ((v : Int) < 0) := by omega
  simp [Heap.load, Heap.slot, Ptr.add, hb, hn]

theorem slot_at {T : Type} (h : Heap T) (b : Nat) (tb : Block T) (hb : h[b]? = some tb)
    (V : Int) (v : Nat) (hV : V = v) :
    h.slot ((⟨some b, 0⟩ : Ptr).add V) = tb[v]? := by
  subst hV
  have hn : ¬ ((v : Int) < 0) := by omega
  simp [Heap.slot, Ptr.add, hb, hn]

theorem store_at {T : Type} (h : Heap T) (b : Nat) (tb : Block T) (hb : h[b]? = some tb)
    (V : Int) (v : Nat) (hV : V = v) (hv : v < tb.length) (s : Option T) :
    h.store ((⟨some b, 0⟩ : Ptr).add V) s = some (h.set b (tb.set v s)) := by
  subst hV
  simp [Heap.store, Ptr.add, hb, hv]

theorem get_set_self {T : Type} (h : Heap T) (b : Nat) (tb tb1 : Block T)
    (hb : h[b]? = some tb) : (h.set b tb1)[b]? = some tb1 := by
  have hlt : b < h.length := by
    rcases List.getElem?_eq_some.1 hb with ⟨hlt, _⟩
    exact hlt
  simp [List.getElem?_set, hlt]

theorem get_set_other {T : Type} (h : Heap T) (a b : Nat) (tb1 : Block T) (hab : a ≠ b) :
    (h.set b tb1)[a]? = h[a]? := by
  simp [List.getElem?_set, Ne.symm hab]

theorem set_set_same {T : Type} (h : Heap T) (b : Nat) (tb1 tb2 : Block T) :
    (h.set b tb1).set b tb2 = h.set b tb2 := by
  simp

/-! ## The shape of the implicit tree -/

theorem InSub.le {v j : Nat} (h : InSub v j) : v ≤ j := by
  induction h with
  | root v => exact le_refl v
  | left _ ih => omega
  | right _ ih => omega

theorem InSub.parent {v j : Nat} (h : InSub v j) :
    j = v ∨ (0 < j ∧ InSub v ((j - 1) / 2)) := by
  induction h with
  | root v => exact Or.inl rfl
  | @left v j _ ih =>
    right
    rcases ih with e | ⟨hpos, hp⟩
    · subst e
      have e2 : (2 * v + 1 - 1) / 2 = v := by omega
      exact ⟨by omega, by rw [e2]; exact InSub.root v⟩
    · exact ⟨hpos, InSub.left hp⟩
  | @right v j _ ih =>
    right
    rcases ih with e | ⟨hpos, hp⟩
    · subst e
      have e2 : (2 * v + 2 - 1) / 2 = v := by omega
      exact ⟨by omega, by rw [e2]; exact InSub.root v⟩
    · exact ⟨hpos, InSub.right hp⟩

theorem insub_disjoint (v : Nat) : ∀ j, InSub (2 * v + 1) j → InSub (2 * v + 2) j → False := by
  intro j
  induction j using Nat.strong_induction_on with
  | _ j ih =>
    intro h1 h2
    rcases h1.parent with e1 | ⟨p1, q1⟩
    · rcases h2.parent with e2 | ⟨_, q2⟩
      · omega
      · subst e1
        have := q2.le
        omega
    · rcases h2.parent with e2 | ⟨_, q2⟩
      · subst e2
        have := q1.le
        omega
      · exact ih ((j - 1) / 2) (by omega) q1 q2

theorem insub_left_ne (v : Nat) {j : Nat} (h : InSub (2 * v + 1) j) : j ≠ v := by
  have := h.le
  omega

theorem insub_right_ne (v : Nat) {j : Nat} (h : InSub (2 * v + 2) j) : j ≠ v := by
  have := h.le
  omega

/-! ## Slice sums -/

theorem accumulate_eq {T : Type} [AddMonoid T] (xs : List T) (init : T) :
    accumulate xs init = init + xs.sum := by
  induction xs generalizing init with
  | nil => simp [accumulate]
  | cons x rest ih => simp [accumulate, ih, add_assoc]

theorem rsum_empty {T : Type} [AddMonoid T] (xs : List T) (l r : Nat) (h : r ≤ l) :
    rsum xs l r = 0 := by
  have e : r - l = 0 := by omega
  simp [rsum, e]

theorem rsum_single {T : Type} [AddMonoid T] (xs : List T) (l : Nat) (x : T)
    (h : xs[l]? = some x) : rsum xs l (l + 1) = x := by
  rcases List.getElem?_eq_some.1 h with ⟨hlt, hx⟩
  have e : l + 1 - l = 1 := by omega
  rw [rsum, e, List.drop_eq_getElem_cons hlt]
  simp [hx]

theorem rsum_split {T : Type} [AddMonoid T] (xs : List T) (l m r : Nat) (h1 : l ≤ m)
    (h2 : m ≤ r) : rsum xs l r = rsum xs l m + rsum xs m r := by
  have e : r - l = (m - l) + (r - m) := by omega
  have e2 : l + (m - l) = m := by omega
  rw [rsum, rsum, rsum, e, List.take_add, List.sum_append, List.drop_drop, e2]

theorem bruteSum_eq {T : Type} [AddMonoid T] (xs : List T) (l r : Int) :
    bruteSum xs l r = rsum xs l.toNat r.toNat := by
  simp [bruteSum, rsum, accumulate_eq]

/-! ## The node invariant -/

theorem Node.slot {T : Type} [Add T] {tb : Block T} {xs : List T} {v l r : Nat} {s : T}
    (hn : Node tb xs v l r s) : tb[v]? = some (some s) := by
  cases hn with
  | leaf _ hv => exact hv
  | inner _ _ _ hv => exact hv

theorem Node.bounds {T : Type} [Add T] {tb : Block T} {xs : List T} {v l r : Nat} {s : T}
    (hn : Node tb xs v l r s) : l ≤ r ∧ r < xs.length := by
  induction hn with
  | leaf hx _ =>
    rcases List.getElem?_eq_some.1 hx with ⟨hlt, _⟩
    exact ⟨le_refl _, hlt⟩
  | inner hlt _ _ _ _ ihr => exact ⟨by omega, ihr.2⟩

theorem Node.val {T : Type} [AddMonoid T] {tb : Block T} {xs : List T} {v l r : Nat} {s : T}
    (hn : Node tb xs v l r s) : s = rsum xs l (r + 1) := by
  induction hn with
  | leaf hx _ => exact (rsum_single xs _ _ hx).symm
  | @inner v l r a b hlt _ _ _ ihl ihr =>
    rw [rsum_split xs l (l + (r - l) / 2 + 1) (r + 1) (by omega) (by omega), ← ihl, ← ihr]

theorem Node.congr {T : Type} [Add T] {tb tb1 : Block T} {xs xs1 : List T} {v l r : Nat}
    {s : T} (hn : Node tb xs v l r s)
    (htb : ∀ j, InSub v j → tb1[j]? = tb[j]?)
    (hxs : ∀ k, l ≤ k → k ≤ r → xs1[k]? = xs[k]?) : Node tb1 xs1 v l r s := by
  induction hn with
  | leaf hx hv =>
    exact Node.leaf (by rw [hxs _ (le_refl _) (le_refl _)]; exact hx)
      (by rw [htb _ (InSub.root _)]; exact hv)
  | @inner v l r a b hlt hl hr hv ihl ihr =>
    have bl := hl.bounds
    have br := hr.bounds
    exact Node.inner hlt
      (ihl (fun j hj => htb j (InSub.left hj)) (fun k h1 h2 => hxs k h1 (by omega)))
      (ihr (fun j hj => htb j (InSub.right hj)) (fun k h1 h2 => hxs k (by omega) h2))
      (by rw [htb _ (InSub.root _)]; exact hv)

/-! ## The tree block is large enough -/

theorem Fits.lt {N v size : Nat} (h : Fits N v size) : v < N := by
  rcases h with ⟨k, _, h2⟩
  have hp : 1 ≤ 2 ^ k := Nat.one_le_two_pow
  have : (v + 2) * 1 ≤ (v + 2) * 2 ^ k := Nat.mul_le_mul_left _ hp
  omega

theorem Fits.child {N v size : Nat} (h : Fits N v size) (hs : 2 ≤ size) (c size1 : Nat)
    (hc : c ≤ 2 * v + 2) (h1 : size1 ≤ (size + 1) / 2) : Fits N c size1 := by
  rcases h with ⟨k, hk1, hk2⟩
  cases k with
  | zero => simp at hk1; omega
  | succ k =>
    have e : 2 ^ (k + 1) = 2 * 2 ^ k := by ring
    refine ⟨k, by omega, ?_⟩
    calc (c + 2) * 2 ^ k ≤ (2 * v + 4) * 2 ^ k := Nat.mul_le_mul_right _ (by omega)
      _ = (v + 2) * 2 ^ (k + 1) := by ring
      _ ≤ N := hk2

theorem fits_root (n : Nat) (hn : 0 < n) : Fits (4 * n) 0 n := by
  have h1 : 2 ^ Nat.log 2 n ≤ n := Nat.pow_log_le_self 2 (by omega)
  have h2 : n < 2 ^ (Nat.log 2 n).succ := Nat.lt_pow_succ_log_self (by omega) n
  have e : 2 ^ (Nat.log 2 n).succ = 2 * 2 ^ Nat.log 2 n := by
    rw [Nat.succ_eq_add_one]; ring
  exact ⟨(Nat.log 2 n).succ, by omega, by omega⟩

/-! ## `build` -/

theorem load_val {T : Type} (h : Heap T) (b : Nat) (tb : Block T) (hb : h[b]? = some tb)
    (V : Int) (v : Nat) (hV : V = v) (s : T) (hs : tb[v]? = some (some s)) :
    h.load ((⟨some b, 0⟩ : Ptr).add V) = some s := by
  rw [load_at h b tb hb V v hV, hs]
  rfl

theorem mid_cast (L R : Int) (l r : Nat) (hL : L = l) (hR : R = r) (hlr : l ≤ r) :
    L + (R - L).tdiv 2 = ((l + (r - l) / 2 : Nat) : Int) := by
  rw [Int.tdiv_eq_ediv (by omega) (by omega)]
  omega

theorem build_ok {T : Type} [Add T] (t : SegmentTree) (a b : Nat) (xs : List T)
    (hc : t.cont_ = ⟨some a, 0⟩) (ht : t.tree_ = ⟨some b, 0⟩) (hab : a ≠ b) :
    ∀ (fuel : Nat) (h : Heap T) (tb : Block T) (V L R : Int) (v l r : Nat),
      V = v → L = l → R = r → l ≤ r → r < xs.length → r - l < fuel →
      Fits tb.length v (r - l + 1) →
      h[a]? = some (xs.map some) → h[b]? = some tb →
      ∃ (tb1 : Block T) (s : T), build t fuel h V L R = some (h.set b tb1) ∧
        tb1.length = tb.length ∧ Node tb1 xs v l r s ∧
        ∀ j, ¬ InSub v j → tb1[j]? = tb[j]? := by
  intro fuel
  induction fuel with
  | zero => intro h tb V L R v l r _ _ _ _ _ hf; omega
  | succ fuel ih =>
    intro h tb V L R v l r hV hL hR hlr hr hf hfit ha hb
    have hvlt : v < tb.length := hfit.lt
    by_cases hleaf : l = r
    · subst hleaf
      have hLR : L = R := by omega
      have hx : (xs.map some)[l]? = some (some xs[l]) := by
        simp [List.getElem?_eq_getElem hr]
      refine ⟨tb.set v (some xs[l]), xs[l], ?_, by simp, ?_, ?_⟩
      · rw [build, if_pos hLR, hc, ht, load_val h a _ ha L l hL _ hx]
        simp only [Option.some_bind]
        exact store_at h b tb hb V v hV hvlt _
      · exact Node.leaf (List.getElem?_eq_getElem hr) (by simp [hvlt])
      · intro j hj
        have hne : v ≠ j := fun e => hj (e ▸ InSub.root v)
        simp [List.getElem?_set, hne]
    · have hLR : ¬ L = R := by omega
      have hmid := mid_cast L R l r hL hR hlr
      obtain ⟨tb1, s1, hb1, hlen1, hn1, hfr1⟩ :=
        ih h tb (V * 2 + 1) L (L + (R - L).tdiv 2) (2 * v + 1) l (l + (r - l) / 2)
          (by omega) hL hmid (by omega) (by omega) (by omega)
          (hfit.child (by omega) _ _ (by omega) (by omega)) ha hb
      have ha1 : (h.set b tb1)[a]? = some (xs.map some) := by
        rw [get_set_other h a b tb1 hab]; exact ha
      have hbb1 : (h.set b tb1)[b]? = some tb1 := get_set_self h b tb tb1 hb
      obtain ⟨tb2, s2, hb2, hlen2, hn2, hfr2⟩ :=
        ih (h.set b tb1) tb1 (V * 2 + 2) (L + (R - L).tdiv 2 + 1) R (2 * v + 2)
          (l + (r - l) / 2 + 1) r (by omega) (by omega) hR (by omega) hr (by omega)
          (by rw [hlen1]; exact hfit.child (by omega) _ _ (by omega) (by omega)) ha1 hbb1
      rw [set_set_same] at hb2
      have hbb2 : (h.set b tb2)[b]? = some tb2 := get_set_self h b tb tb2 hb
      have hn1' : Node tb2 xs (2 * v + 1) l (l + (r - l) / 2) s1 :=
        hn1.congr (fun j hj => hfr2 j (fun hj2 => insub_disjoint v j hj hj2))
          (fun _ _ _ => rfl)
      have hv2 : v < tb2.length := by omega
      refine ⟨tb2.set v (some (s1 + s2)), s1 + s2, ?_, by simp; omega, ?_, ?_⟩
      · rw [build, if_neg hLR]
        simp only [hb1, hb2, Option.some_bind]
        rw [ht, load_val _ b tb2 hbb2 (V * 2 + 1) (2 * v + 1) (by omega) _ hn1'.slot,
          load_val _ b tb2 hbb2 (V * 2 + 2) (2 * v + 2) (by omega) _ hn2.slot]
        simp only [Option.some_bind]
        rw [store_at _ b tb2 hbb2 V v hV hv2, set_set_same]
      · refine Node.inner (by omega) (hn1'.congr ?_ (fun _ _ _ => rfl))
          (hn2.congr ?_ (fun _ _ _ => rfl)) (by simp [hv2])
        · intro j hj
          have hne : v ≠ j := fun e => insub_left_ne v hj e.symm
          simp [List.getElem?_set, hne]
        · intro j hj
          have hne : v ≠ j := fun e => insub_right_ne v hj e.symm
          simp [List.getElem?_set, hne]
      · intro j hj
        have hne : v ≠ j := fun e => hj (e ▸ InSub.root v)
        have hj1 : ¬ InSub (2 * v + 1) j := fun hh => hj (InSub.left hh)
        have hj2 : ¬ InSub (2 * v + 2) j := fun hh => hj (InSub.right hh)
        rw [List.getElem?_set_ne hne, hfr2 j hj2, hfr1 j hj1]

/-! ## `sum_util` and `sum` -/

theorem sum_util_ok {T : Type} [AddMonoid T] (t : SegmentTree) (b : Nat) (xs : List T)
    (ht : t.tree_ = ⟨some b, 0⟩) (h : Heap T) (tb : Block T) (hb : h[b]? = some tb) :
    ∀ (fuel : Nat) (QL QR V L R : Int) (ql qe v l r : Nat) (s : T),
      QL = ql → QR = (qe : Int) - 1 → V = v → L = l → R = r →
      Node tb xs v l r s → r - l < fuel → l ≤ ql → qe ≤ r + 1 →
      sum_util t h fuel QL QR V L R = some (rsum xs ql qe) := by
  intro fuel
  induction fuel with
  | zero => intro QL QR V L R ql qe v l r s _ _ _ _ _ _ hf; omega
  | succ fuel ih =>
    intro QL QR V L R ql qe v l r s hQL hQR hV hL hR hn hf hlq hqr
    rw [sum_util]
    by_cases hgt : QL > QR
    · rw [if_pos hgt, rsum_empty xs ql qe (by omega)]
    · rw [if_neg hgt]
      by_cases hex : QL = L ∧ QR = R
      · rw [if_pos hex, ht, load_val h b tb hb V v hV s hn.slot]
        have e1 : ql = l := by omega
        have e2 : qe = r + 1 := by omega
        rw [e1, e2, ← hn.val]
      · rw [if_neg hex]
        cases hn with
        | leaf _ _ => exact absurd ⟨by omega, by omega⟩ hex
        | @inner _ _ _ s1 s2 hlt hn1 hn2 hv =>
          have hmid := mid_cast L R l r hL hR (by omega)
          have h1 := ih QL (min QR (L + (R - L).tdiv 2)) (V * 2 + 1) L (L + (R - L).tdiv 2)
            ql (min qe (l + (r - l) / 2 + 1)) (2 * v + 1) l (l + (r - l) / 2) s1
            hQL (by omega) (by omega) hL hmid hn1 (by omega) hlq (by omega)
          have h2 := ih (max QL (L + (R - L).tdiv 2 + 1)) QR (V * 2 + 2)
            (L + (R - L).tdiv 2 + 1) R
            (max ql (l + (r - l) / 2 + 1)) qe (2 * v + 2) (l + (r - l) / 2 + 1) r s2
            (by omega) hQR (by omega) (by omega) hR hn2 (by omega) (by omega) hqr
          simp only [h1, h2, Option.some_bind]
          congr 1
          by_cases c1 : qe ≤ l + (r - l) / 2 + 1
          · rw [Nat.min_eq_left c1,
              rsum_empty xs (max ql (l + (r - l) / 2 + 1)) qe (by omega), add_zero]
          · by_cases c2 : l + (r - l) / 2 + 1 ≤ ql
            · rw [Nat.max_eq_left c2,
                rsum_empty xs ql (min qe (l + (r - l) / 2 + 1)) (by omega), zero_add]
            · rw [Nat.min_eq_right (by omega), Nat.max_eq_right (by omega)]
              exact (rsum_split xs ql _ qe (by omega) (by omega)).symm

theorem sum_ok {T : Type} [AddMonoid T] (h : Heap T) (t : SegmentTree) (xs : List T)
    (hv : Valid h t xs) (l r : Int) (h0 : 0 ≤ l) (hrn : r ≤ t.n_) :
    sum h t l r = some (bruteSum xs l r) := by
  rcases hv with ⟨hn, hrep⟩
  rw [bruteSum_eq]
  by_cases hgo : t.n_ > 0 ∧ l < r
  · have hne : xs ≠ [] := by
      intro e
      rw [e] at hn
      simp at hn
      omega
    obtain ⟨a, b, tb, s, _, ht, _, _, hb, _, hnode⟩ := hrep hne
    have hlen : 0 < xs.length := List.length_pos.2 hne
    rw [sum, if_pos hgo]
    exact sum_util_ok t b xs ht h tb hb t.n_.toNat l (r - 1) 0 0 (t.n_ - 1)
      l.toNat r.toNat 0 0 (xs.length - 1) s (by omega) (by omega) rfl rfl (by omega)
      hnode (by omega) (by omega) (by omega)
  · rw [sum, if_neg hgo, rsum_empty xs _ _ (by omega)]

/-! ## `update_util` and `update` -/

theorem update_util_ok {T : Type} [Add T] (t : SegmentTree) (b : Nat) (xs : List T)
    (ht : t.tree_ = ⟨some b, 0⟩) (I : Int) (i : Nat) (hI : I = i) (x : T) :
    ∀ (fuel : Nat) (h : Heap T) (tb : Block T) (V L R : Int) (v l r : Nat) (s : T),
      V = v → L = l → R = r → Node tb xs v l r s → r - l < fuel → l ≤ i → i ≤ r →
      h[b]? = some tb →
      ∃ (tb1 : Block T) (s1 : T), update_util t I x fuel h V L R = some (h.set b tb1) ∧
        tb1.length = tb.length ∧ Node tb1 (xs.set i x) v l r s1 ∧
        ∀ j, ¬ InSub v j → tb1[j]? = tb[j]? := by
  intro fuel
  induction fuel with
  | zero => intro h tb V L R v l r s _ _ _ _ hf; omega
  | succ fuel ih =>
    intro h tb V L R v l r s hV hL hR hn hf hli hir hb
    have hvlt : v < tb.length := by
      rcases List.getElem?_eq_some.1 hn.slot with ⟨hlt, _⟩
      exact hlt
    have hrx := hn.bounds.2
    cases hn with
    | leaf hx hv =>
      have hLR : L = R := by omega
      have e : i = l := by omega
      refine ⟨tb.set v (some x), x, ?_, by simp, ?_, ?_⟩
      · rw [update_util, if_pos hLR, ht]
        exact store_at h b tb hb V v hV hvlt _
      · exact Node.leaf (by rw [e]; simp [hrx]) (by simp [hvlt])
      · intro j hj
        have hne : v ≠ j := fun e => hj (e ▸ InSub.root v)
        simp [List.getElem?_set, hne]
    | @inner _ _ _ sa sb hlt hn1 hn2 hv =>
      have hLR : ¬ L = R := by omega
      have hmid := mid_cast L R l r hL hR (by omega)
      have key : ∃ (tb1 : Block T) (s1 s2 : T),
          (if I ≤ L + (R - L).tdiv 2 then
            update_util t I x fuel h (V * 2 + 1) L (L + (R - L).tdiv 2)
          else
            update_util t I x fuel h (V * 2 + 2) (L + (R - L).tdiv 2 + 1) R)
            = some (h.set b tb1) ∧ tb1.length = tb.length ∧
          Node tb1 (xs.set i x) (2 * v + 1) l (l + (r - l) / 2) s1 ∧
          Node tb1 (xs.set i x) (2 * v + 2) (l + (r - l) / 2 + 1) r s2 ∧
          ∀ j, ¬ InSub v j → tb1[j]? = tb[j]? := by
        by_cases hside : I ≤ L + (R - L).tdiv 2
        · obtain ⟨tb1, s1, hu, hlen, hnode, hfr⟩ :=
            ih h tb (V * 2 + 1) L (L + (R - L).tdiv 2) (2 * v + 1) l (l + (r - l) / 2) sa
              (by omega) hL hmid hn1 (by omega) hli (by omega) hb
          refine ⟨tb1, s1, sb, by rw [if_pos hside]; exact hu, hlen, hnode, ?_, ?_⟩
          · refine hn2.congr (fun j hj => hfr j (fun hj1 => insub_disjoint v j hj1 hj)) ?_
            intro k hk1 _
            rw [List.getElem?_set_ne (by omega)]
          · intro j hj
            exact hfr j (fun hh => hj (InSub.left hh))
        · obtain ⟨tb1, s2, hu, hlen, hnode, hfr⟩ :=
            ih h tb (V * 2 + 2) (L + (R - L).tdiv 2 + 1) R (2 * v + 2)
              (l + (r - l) / 2 + 1) r sb
              (by omega) (by omega) hR hn2 (by omega) (by omega) hir hb
          refine ⟨tb1, sa, s2, by rw [if_neg hside]; exact hu, hlen, ?_, hnode, ?_⟩
          · refine hn1.congr (fun j hj => hfr j (fun hj2 => insub_disjoint v j hj hj2)) ?_
            intro k _ hk2
            rw [List.getElem?_set_ne (by omega)]
          · intro j hj
            exact hfr j (fun hh => hj (InSub.right hh))
      obtain ⟨tb1, s1, s2, hu, hlen, hna, hnb, hfr⟩ := key
      have hbb1 : (h.set b tb1)[b]? = some tb1 := get_set_self h b tb tb1 hb
      have hv1 : v < tb1.length := by omega
      refine ⟨tb1.set v (some (s1 + s2)), s1 + s2, ?_, by simp; omega, ?_, ?_⟩
      · rw [update_util, if_neg hLR]
        simp only [hu, Option.some_bind]
        rw [ht, load_val _ b tb1 hbb1 (V * 2 + 1) (2 * v + 1) (by omega) _ hna.slot,
          load_val _ b tb1 hbb1 (V * 2 + 2) (2 * v + 2) (by omega) _ hnb.slot]
        simp only [Option.some_bind]
        rw [store_at _ b tb1 hbb1 V v hV hv1, set_set_same]
      · refine Node.inner (by omega) (hna.congr ?_ (fun _ _ _ => rfl))
          (hnb.congr ?_ (fun _ _ _ => rfl)) (by simp [hv1])
        · intro j hj
          have hne : v ≠ j := fun e => insub_left_ne v hj e.symm
          simp [List.getElem?_set, hne]
        · intro j hj
          have hne : v ≠ j := fun e => insub_right_ne v hj e.symm
          simp [List.getElem?_set, hne]
      · intro j hj
        have hne : v ≠ j := fun e => hj (e ▸ InSub.root v)
        rw [List.getElem?_set_ne hne, hfr j hj]

theorem valid_nonempty {T : Type} [Add T] {h : Heap T} {t : SegmentTree} {xs : List T}
    (hv : Valid h t xs) (hn : 0 < t.n_) : xs ≠ [] := by
  intro e
  have := hv.1
  rw [e] at this
  simp at this
  omega

theorem update_ok {T : Type} [Add T] [IntCast T] [LE T] [DecidableRel (LE.le : T → T → Prop)]
    (h : Heap T) (t : SegmentTree) (xs : List T) (hv : Valid h t xs) (index : Int)
    (newVal : T) (h0 : 0 ≤ index) (hn : index < t.n_) (hg : (index : T) ≤ newVal) :
    ∃ h1 : Heap T, update h t index newVal = some h1 ∧
      Valid h1 t (xs.set index.toNat newVal) ∧ h1.length = h.length ∧
      ∀ c, t.cont_.blk ≠ some c → t.tree_.blk ≠ some c → h1[c]? = h[c]? := by
  have hne : xs ≠ [] := valid_nonempty hv (by omega)
  obtain ⟨hlen, hrep⟩ := hv
  obtain ⟨a, b, tb, s, hc, ht, hab, ha, hb, htl, hnode⟩ := hrep hne
  have hi : index.toNat < (xs.map some).length := by simp; omega
  have hb1 : (h.set a ((xs.map some).set index.toNat (some newVal)))[b]? = some tb := by
    rw [get_set_other h b a _ (Ne.symm hab)]; exact hb
  obtain ⟨tb1, s1, hu, hl1, hn1, _⟩ :=
    update_util_ok t b xs ht index index.toNat (by omega) newVal t.n_.toNat
      (h.set a ((xs.map some).set index.toNat (some newVal))) tb 0 0 (t.n_ - 1)
      0 0 (xs.length - 1) s rfl rfl (by omega) hnode (by omega) (by omega) (by omega) hb1
  refine ⟨(h.set a ((xs.map some).set index.toNat (some newVal))).set b tb1, ?_,
    ⟨by simp [hlen], fun _ => ⟨a, b, tb1, s1, hc, ht, hab, ?_, ?_, ?_, ?_⟩⟩, by simp, ?_⟩
  · rw [update, if_pos ⟨by omega, hg⟩, hc,
      store_at h a _ ha index index.toNat (by omega) hi]
    simp only [Option.some_bind]
    exact hu
  · rw [get_set_other _ a b _ hab, get_set_self h a _ _ ha, List.map_set]
  · exact get_set_self _ b tb tb1 hb1
  · simp [hl1, htl]
  · simpa using hn1
  · intro c hca hcb
    rw [hc] at hca
    rw [ht] at hcb
    have e1 : c ≠ a := fun e => hca (by rw [e])
    have e2 : c ≠ b := fun e => hcb (by rw [e])
    rw [get_set_other _ c b _ e2, get_set_other _ c a _ e1]

/-! ## Allocation and the constructors' loops -/

theorem set_self {T : Type} (h : Heap T) (a : Nat) (cb : Block T) (ha : h[a]? = some cb) :
    h.set a cb = h := by
  apply List.ext_getElem?
  intro k
  rw [List.getElem?_set]
  by_cases e : a = k
  · subst e
    rcases List.getElem?_eq_some.1 ha with ⟨hlt, _⟩
    simp [hlt, ha]
  · simp [e]

theorem alloc_two {T : Type} {β : Type} (h : Heap T) (n : Int) (hn : 0 ≤ n)
    (F : Heap T → Ptr → Ptr → Option β) :
    ((h.alloc n).bind fun (h1, c) => (h1.alloc (4 * n)).bind fun (h2, tr) => F h2 c tr) =
      F (h ++ [List.replicate n.toNat none] ++ [List.replicate (4 * n).toNat none])
        ⟨some h.length, 0⟩ ⟨some (h.length + 1), 0⟩ := by
  have h1 : ¬ n < 0 := by omega
  have h2 : ¬ 4 * n < 0 := by omega
  simp [Heap.alloc, h1, h2]

theorem alloc_two_get {T : Type} (h : Heap T) (b1 b2 : Block T) :
    (h ++ [b1] ++ [b2])[h.length]? = some b1 ∧
    (h ++ [b1] ++ [b2])[h.length + 1]? = some b2 ∧
    (∀ c, c < h.length → (h ++ [b1] ++ [b2])[c]? = h[c]?) ∧
    (h ++ [b1] ++ [b2]).length = h.length + 2 := by
  refine ⟨?_, ?_, ?_, by simp⟩
  · rw [List.append_assoc, List.getElem?_append_right (le_refl _)]
    simp
  · rw [List.getElem?_append_right (by simp)]
    simp
  · intro c hc
    rw [List.append_assoc, List.getElem?_append_left hc]

theorem range_loop_ok {T : Type} (a : Nat) :
    ∀ (rest : List T) (h : Heap T) (cb : Block T) (I : Int) (i : Nat),
      I = i → h[a]? = some cb → i + rest.length ≤ cb.length →
      ∃ cb1 : Block T, range_loop ⟨some a, 0⟩ rest h I = some (h.set a cb1) ∧
        cb1.length = cb.length ∧
        ∀ k, cb1[k]? =
          if i ≤ k ∧ k < i + rest.length then (rest[k - i]?).map some else cb[k]? := by
  intro rest
  induction rest with
  | nil =>
    intro h cb I i _ ha _
    refine ⟨cb, by rw [range_loop, set_self h a cb ha], rfl, ?_⟩
    intro k
    have : ¬ (i ≤ k ∧ k < i + ([] : List T).length) := by simp
    rw [if_neg this]
  | cons x rest ih =>
    intro h cb I i hI ha hlen
    simp only [List.length_cons] at hlen
    have hi : i < cb.length := by omega
    obtain ⟨cb1, hr, hl1, hget⟩ :=
      ih (h.set a (cb.set i (some x))) (cb.set i (some x)) (I + 1) (i + 1) (by omega)
        (get_set_self h a cb _ ha) (by simp; omega)
    rw [set_set_same] at hr
    refine ⟨cb1, ?_, by simpa using hl1, ?_⟩
    · rw [range_loop, store_at h a cb ha I i hI hi]
      simp only [Option.some_bind]
      exact hr
    · intro k
      rw [hget k]
      by_cases c1 : i + 1 ≤ k ∧ k < i + 1 + rest.length
      · have c2 : i ≤ k ∧ k < i + (x :: rest).length := by simp; omega
        have e : k - i = (k - (i + 1)) + 1 := by omega
        rw [if_pos c1, if_pos c2, e, List.getElem?_cons_succ]
      · rw [if_neg c1]
        by_cases c3 : k = i
        · subst c3
          have c2 : k ≤ k ∧ k < k + (x :: rest).length := by simp
          rw [if_pos c2, List.getElem?_set_self hi]
          simp
        · have c2 : ¬ (i ≤ k ∧ k < i + (x :: rest).length) := by simp; omega
          rw [if_neg c2, List.getElem?_set_ne (fun e => c3 e.symm)]

theorem input_loop_ok {T : Type} (a : Nat) (input : List T) (n : Int) (N : Nat)
    (hN : n = N) (hin : N ≤ input.length) :
    ∀ (fuel : Nat) (h : Heap T) (cb : Block T) (I : Int) (i : Nat),
      I = i → h[a]? = some cb → N ≤ cb.length → i ≤ N → N - i ≤ fuel →
      ∃ cb1 : Block T, input_loop ⟨some a, 0⟩ input n fuel h I = some (h.set a cb1) ∧
        cb1.length = cb.length ∧
        ∀ k, cb1[k]? = if i ≤ k ∧ k < N then (input[k]?).map some else cb[k]? := by
  intro fuel
  induction fuel with
  | zero =>
    intro h cb I i hI ha _ _ hf
    have hge : ¬ I < n := by omega
    refine ⟨cb, by rw [input_loop, if_neg hge, set_self h a cb ha], rfl, ?_⟩
    intro k
    have : ¬ (i ≤ k ∧ k < N) := by omega
    rw [if_neg this]
  | succ fuel ih =>
    intro h cb I i hI ha hcb hiN hf
    by_cases hlt : I < n
    · have hi : i < cb.length := by omega
      have hi2 : i < input.length := by omega
      have hneg : ¬ I < 0 := by omega
      have hIi : I.toNat = i := by omega
      obtain ⟨cb1, hr, hl1, hget⟩ :=
        ih (h.set a (cb.set i (some input[i]))) (cb.set i (some input[i])) (I + 1) (i + 1)
          (by omega) (get_set_self h a cb _ ha) (by simp; omega) (by omega) (by omega)
      rw [set_set_same] at hr
      refine ⟨cb1, ?_, by simpa using hl1, ?_⟩
      · rw [input_loop, if_pos hlt, if_neg hneg, hIi, List.getElem?_eq_getElem hi2]
        simp only [Option.some_bind]
        rw [store_at h a cb ha I i hI hi]
        simp only [Option.some_bind]
        exact hr
      · intro k
        rw [hget k]
        by_cases c1 : i + 1 ≤ k ∧ k < N
        · rw [if_pos c1, if_pos ⟨by omega, c1.2⟩]
        · rw [if_neg c1]
          by_cases c3 : k = i
          · subst c3
            rw [if_pos ⟨le_refl _, by omega⟩, List.getElem?_set_self hi,
              List.getElem?_eq_getElem hi2]
            simp
          · have c2 : ¬ (i ≤ k ∧ k < N) := by omega
            rw [if_neg c2, List.getElem?_set_ne (fun e => c3 e.symm)]
    · refine ⟨cb, by rw [input_loop, if_neg hlt, set_self h a cb ha], rfl, ?_⟩
      intro k
      have : ¬ (i ≤ k ∧ k < N) := by omega
      rw [if_neg this]

theorem copy_loop_done {T : Type} (dst src : Ptr) (n : Int) (fuel : Nat) (h : Heap T)
    (i : Int) (hi : n ≤ i) : copy_loop dst src n fuel h i = some h := by
  have hge : ¬ i < n := by omega
  cases fuel with
  | zero => rw [copy_loop, if_neg hge]
  | succ fuel => rw [copy_loop, if_neg hge]

theorem copy_loop_ok {T : Type} (d a : Nat) (hda : d ≠ a) (sb : Block T) (n : Int) (N : Nat)
    (hN : n = N) (hsb : N ≤ sb.length) :
    ∀ (fuel : Nat) (h : Heap T) (db : Block T) (I : Int) (i : Nat),
      I = i → h[d]? = some db → h[a]? = some sb → N ≤ db.length → i ≤ N → N - i ≤ fuel →
      ∃ db1 : Block T,
        copy_loop ⟨some d, 0⟩ ⟨some a, 0⟩ n fuel h I = some (h.set d db1) ∧
        db1.length = db.length ∧
        ∀ k, db1[k]? = if i ≤ k ∧ k < N then sb[k]? else db[k]? := by
  intro fuel
  induction fuel with
  | zero =>
    intro h db I i hI hd _ _ _ hf
    refine ⟨db, by rw [copy_loop_done _ _ n 0 h I (by omega), set_self h d db hd], rfl, ?_⟩
    intro k
    have : ¬ (i ≤ k ∧ k < N) := by omega
    rw [if_neg this]
  | succ fuel ih =>
    intro h db I i hI hd ha hdb hiN hf
    by_cases hlt : I < n
    · have hi : i < db.length := by omega
      have hi2 : i < sb.length := by omega
      have ha1 : (h.set d (db.set i sb[i]))[a]? = some sb := by
        rw [get_set_other h a d _ (Ne.symm hda)]; exact ha
      obtain ⟨db1, hr, hl1, hget⟩ :=
        ih (h.set d (db.set i sb[i])) (db.set i sb[i]) (I + 1) (i + 1)
          (by omega) (get_set_self h d db _ hd) ha1 (by simp; omega) (by omega) (by omega)
      rw [set_set_same] at hr
      refine ⟨db1, ?_, by simpa using hl1, ?_⟩
      · rw [copy_loop, if_pos hlt, slot_at h a sb ha I i hI, List.getElem?_eq_getElem hi2]
        simp only [Option.some_bind]
        rw [store_at h d db hd I i hI hi]
        simp only [Option.some_bind]
        exact hr
      · intro k
        rw [hget k]
        by_cases c1 : i + 1 ≤ k ∧ k < N
        · rw [if_pos c1, if_pos ⟨by omega, c1.2⟩]
        · rw [if_neg c1]
          by_cases c3 : k = i
          · subst c3
            rw [if_pos ⟨le_refl _, by omega⟩, List.getElem?_set_self hi,
              List.getElem?_eq_getElem hi2]
          · have c2 : ¬ (i ≤ k ∧ k < N) := by omega
            rw [if_neg c2, List.getElem?_set_ne (fun e => c3 e.symm)]
    · refine ⟨db, by rw [copy_loop_done _ _ n _ h I (by omega), set_self h d db hd], rfl, ?_⟩
      intro k
      have : ¬ (i ≤ k ∧ k < N) := by omega
      rw [if_neg this]

/-! ## The constructors establish the representation invariant -/

theorem ctor_finish {T : Type} [Add T] (h3 : Heap T) (a b : Nat) (hab : a ≠ b) (xs : List T)
    (tb : Block T) (n : Int) (hn : n = xs.length) (ha : h3[a]? = some (xs.map some))
    (hb : h3[b]? = some tb) (htl : tb.length = 4 * xs.length) :
    ∃ h4 : Heap T,
      (if (⟨⟨some a, 0⟩, ⟨some b, 0⟩, n⟩ : SegmentTree).n_ > 0 then
        (build ⟨⟨some a, 0⟩, ⟨some b, 0⟩, n⟩
          (⟨⟨some a, 0⟩, ⟨some b, 0⟩, n⟩ : SegmentTree).n_.toNat h3 0 0
          ((⟨⟨some a, 0⟩, ⟨some b, 0⟩, n⟩ : SegmentTree).n_ - 1)).bind
          fun h4 => some (h4, (⟨⟨some a, 0⟩, ⟨some b, 0⟩, n⟩ : SegmentTree))
      else some (h3, ⟨⟨some a, 0⟩, ⟨some b, 0⟩, n⟩)) =
        some (h4, ⟨⟨some a, 0⟩, ⟨some b, 0⟩, n⟩) ∧
      Valid h4 ⟨⟨some a, 0⟩, ⟨some b, 0⟩, n⟩ xs ∧ h4.length = h3.length ∧
      ∀ c, c ≠ b → h4[c]? = h3[c]? := by
  by_cases hpos : n > 0
  · have hlen : 0 < xs.length := by omega
    have hfit : Fits tb.length 0 (xs.length - 1 - 0 + 1) := by
      have e : xs.length - 1 - 0 + 1 = xs.length := by omega
      rw [e, htl]
      exact fits_root xs.length hlen
    obtain ⟨tb1, s, hbuild, hl1, hnode, _⟩ :=
      build_ok ⟨⟨some a, 0⟩, ⟨some b, 0⟩, n⟩ a b xs rfl rfl hab n.toNat h3 tb 0 0 (n - 1)
        0 0 (xs.length - 1) rfl rfl (by omega) (by omega) (by omega) (by omega) hfit ha hb
    refine ⟨h3.set b tb1, ?_, ⟨hn, fun _ => ⟨a, b, tb1, s, rfl, rfl, hab, ?_, ?_, ?_, hnode⟩⟩,
      by simp, ?_⟩
    · simp only [if_pos hpos, hbuild, Option.some_bind]
    · rw [get_set_other h3 a b tb1 hab]; exact ha
    · exact get_set_self h3 b tb tb1 hb
    · omega
    · intro c hc
      exact get_set_other h3 c b tb1 hc
  · have hlen : xs.length = 0 := by omega
    refine ⟨h3, by simp only [if_neg hpos], ⟨hn, fun hne => ?_⟩, rfl, fun _ _ => rfl⟩
    exact absurd (List.length_eq_zero.1 hlen) hne

theorem from_range_ok {T : Type} [Add T] (h : Heap T) (xs : List T) :
    ∃ (h1 : Heap T) (t : SegmentTree), SegmentTree.from_range h xs = some (h1, t) ∧
      Valid h1 t xs ∧ h1.length = h.length + 2 ∧ (∀ c, c < h.length → h1[c]? = h[c]?) ∧
      t = ⟨⟨some h.length, 0⟩, ⟨some (h.length + 1), 0⟩, xs.length⟩ := by
  obtain ⟨g1, g2, g3, g4⟩ := alloc_two_get h (List.replicate (xs.length : Int).toNat none)
    (List.replicate (4 * (xs.length : Int)).toNat (none : Option T))
  obtain ⟨cb1, hloop, hl1, hget⟩ :=
    range_loop_ok h.length xs _ _ 0 0 rfl g1 (by simp)
  have hcb : cb1 = xs.map some := by
    apply List.ext_getElem?
    intro k
    rw [hget k, List.getElem?_map]
    by_cases c : k < xs.length
    · rw [if_pos ⟨by omega, by omega⟩]
      simp
    · rw [if_neg (by omega), List.getElem?_eq_none (by simp; omega),
        List.getElem?_eq_none (by omega)]
      rfl
  subst hcb
  obtain ⟨h4, hfin, hvalid, hl4, hfr⟩ :=
    ctor_finish (List.set _ h.length (xs.map some)) h.length (h.length + 1) (by omega) xs
      (List.replicate (4 * (xs.length : Int)).toNat none) xs.length rfl
      (get_set_self _ _ _ _ g1)
      (by rw [get_set_other _ _ _ _ (by omega)]; exact g2) (by simp; omega)
  refine ⟨h4, _, ?_, hvalid, ?_, ?_, rfl⟩
  · rw [SegmentTree.from_range]
    have e1 : ¬ ((xs.length : Int) < 0) := by omega
    have e2 : ¬ (4 * (xs.length : Int) < 0) := by omega
    simp only [Heap.alloc, if_neg e1, if_neg e2, Option.some_bind, List.length_append,
      List.length_singleton]
    rw [hloop]
    simp only [Option.some_bind]
    exact hfin
  · rw [hl4, List.length_set, g4]
  · intro c hc
    rw [hfr c (by omega), get_set_other _ _ _ _ (by omega), g3 c hc]

theorem from_array_ok {T : Type} [Add T] (h : Heap T) (input : List T) (n : Int)
    (h0 : 0 ≤ n) (hn : n ≤ input.length) :
    ∃ (h1 : Heap T) (t : SegmentTree), SegmentTree.from_array h input n = some (h1, t) ∧
      Valid h1 t (input.take n.toNat) ∧ h1.length = h.length + 2 ∧
      (∀ c, c < h.length → h1[c]? = h[c]?) ∧
      t = ⟨⟨some h.length, 0⟩, ⟨some (h.length + 1), 0⟩, n⟩ := by
  obtain ⟨g1, g2, g3, g4⟩ := alloc_two_get h (List.replicate n.toNat none)
    (List.replicate (4 * n).toNat (none : Option T))
  obtain ⟨cb1, hloop, hl1, hget⟩ :=
    input_loop_ok h.length input n n.toNat (by omega) (by omega) n.toNat _ _ 0 0 rfl g1
      (by simp) (by omega) (by omega)
  have hcb : cb1 = (input.take n.toNat).map some := by
    apply List.ext_getElem?
    intro k
    rw [hget k, List.getElem?_map, List.getElem?_take]
    by_cases c : k < n.toNat
    · rw [if_pos ⟨by omega, c⟩, if_pos c]
    · rw [if_neg (by omega), if_neg c, List.getElem?_eq_none (by simp; omega)]
      rfl
  subst hcb
  have hlen : (input.take n.toNat).length = n.toNat := by
    rw [List.length_take]; omega
  obtain ⟨h4, hfin, hvalid, hl4, hfr⟩ :=
    ctor_finish (List.set _ h.length ((input.take n.toNat).map some)) h.length
      (h.length + 1) (by omega) (input.take n.toNat)
      (List.replicate (4 * n).toNat none) n (by omega)
      (get_set_self _ _ _ _ g1)
      (by rw [get_set_other _ _ _ _ (by omega)]; exact g2) (by simp; omega)
  refine ⟨h4, _, ?_, hvalid, ?_, ?_, rfl⟩
  · rw [SegmentTree.from_array]
    have e1 : ¬ (n < 0) := by omega
    have e2 : ¬ (4 * n < 0) := by omega
    simp only [Heap.alloc, if_neg e1, if_neg e2, Option.some_bind, List.length_append,
      List.length_singleton]
    rw [hloop]
    simp only [Option.some_bind]
    exact hfin
  · rw [hl4, List.length_set, g4]
  · intro c hc
    rw [hfr c (by omega), get_set_other _ _ _ _ (by omega), g3 c hc]

theorem input_loop_short {T : Type} (cont : Ptr) (input : List T) (n : Int)
    (hn : (input.length : Int) < n) :
    ∀ (fuel : Nat) (h : Heap T) (I : Int), 0 ≤ I → I ≤ input.length →
      input_loop cont input n fuel h I = none := by
  intro fuel
  induction fuel with
  | zero =>
    intro h I _ hI
    rw [input_loop, if_pos (by omega)]
  | succ fuel ih =>
    intro h I h0 hI
    rw [input_loop, if_pos (by omega), if_neg (by omega)]
    by_cases hend : I.toNat < input.length
    · rw [List.getElem?_eq_getElem hend]
      simp only [Option.some_bind]
      cases hs : h.store (cont.add I) (some input[I.toNat]) with
      | none => rfl
      | some h1 =>
        simp only [Option.some_bind]
        exact ih h1 (I + 1) (by omega) (by omega)
    · rw [List.getElem?_eq_none (by omega)]
      rfl

theorem from_array_some {T : Type} [Add T] (h h1 : Heap T) (input : List T) (n : Int)
    (t : SegmentTree) (hs : SegmentTree.from_array h input n = some (h1, t)) :
    0 ≤ n ∧ n ≤ input.length := by
  by_cases h0 : n < 0
  · simp [SegmentTree.from_array, Heap.alloc, h0] at hs
  · by_cases hlen : n ≤ input.length
    · exact ⟨by omega, hlen⟩
    · have e2 : ¬ (4 * n < 0) := by omega
      rw [SegmentTree.from_array] at hs
      simp only [Heap.alloc, if_neg h0, if_neg e2, Option.some_bind] at hs
      rw [input_loop_short _ input n (by omega) _ _ 0 (le_refl _) (by omega)] at hs
      simp at hs

theorem copy_ok {T : Type} [Add T] (h : Heap T) (x : SegmentTree) (xs : List T)
    (hv : Valid h x xs) :
    ∃ (h1 : Heap T) (t : SegmentTree), SegmentTree.copy h x = some (h1, t) ∧
      Valid h1 t xs ∧ h1.length = h.length + 2 ∧ (∀ c, c < h.length → h1[c]? = h[c]?) ∧
      t = ⟨⟨some h.length, 0⟩, ⟨some (h.length + 1), 0⟩, x.n_⟩ := by
  obtain ⟨hn, hrep⟩ := hv
  obtain ⟨g1, g2, g3, g4⟩ := alloc_two_get h (List.replicate x.n_.toNat none)
    (List.replicate (4 * x.n_).toNat (none : Option T))
  have e1 : ¬ (x.n_ < 0) := by omega
  have e2 : ¬ (4 * x.n_ < 0) := by omega
  by_cases hne : xs = []
  · have hz : x.n_ = 0 := by rw [hn, hne]; rfl
    refine ⟨h ++ [List.replicate x.n_.toNat none] ++ [List.replicate (4 * x.n_).toNat none],
      ⟨⟨some h.length, 0⟩, ⟨some (h.length + 1), 0⟩, x.n_⟩, ?_,
      ⟨hn, fun hh => absurd hne hh⟩, g4, g3, rfl⟩
    rw [SegmentTree.copy]
    simp only [Heap.alloc, if_neg e1, if_neg e2, Option.some_bind, List.length_append,
      List.length_singleton]
    rw [copy_loop_done _ _ _ _ _ _ (by omega)]
    simp only [Option.some_bind]
    rw [copy_loop_done _ _ _ _ _ _ (by omega)]
    simp only [Option.some_bind]
  · obtain ⟨a, b, tb, s, hc, ht, hab, ha, hb, htl, hnode⟩ := hrep hne
    have halt : a < h.length := (List.getElem?_eq_some.1 ha).1
    have hblt : b < h.length := (List.getElem?_eq_some.1 hb).1
    have ha2 := (g3 a halt).trans ha
    have hb2 := (g3 b hblt).trans hb
    obtain ⟨cb1, hloop1, hl1, hget1⟩ :=
      copy_loop_ok h.length a (by omega) (xs.map some) x.n_ xs.length hn (by simp)
        x.n_.toNat _ _ 0 0 rfl g1 ha2 (by simp; omega) (by omega) (by omega)
    have hcb : cb1 = xs.map some := by
      apply List.ext_getElem?
      intro k
      rw [hget1 k]
      by_cases c : k < xs.length
      · rw [if_pos ⟨by omega, c⟩]
      · rw [if_neg (by omega), List.getElem?_eq_none (by simp; omega),
          List.getElem?_eq_none (by simp; omega)]
    subst hcb
    have g2' : (List.set (h ++ [List.replicate x.n_.toNat none] ++
        [List.replicate (4 * x.n_).toNat (none : Option T)]) h.length (xs.map some))[
        h.length + 1]? = some (List.replicate (4 * x.n_).toNat none) := by
      rw [get_set_other _ _ _ _ (by omega)]; exact g2
    have hb3 : (List.set (h ++ [List.replicate x.n_.toNat none] ++
        [List.replicate (4 * x.n_).toNat (none : Option T)]) h.length (xs.map some))[b]? =
        some tb := by
      rw [get_set_other _ _ _ _ (by omega)]; exact hb2
    obtain ⟨tb1, hloop2, hl2, hget2⟩ :=
      copy_loop_ok (h.length + 1) b (by omega) tb (4 * x.n_) (4 * xs.length)
        (by rw [hn]; push_cast; ring) (by omega)
        (4 * x.n_).toNat _ _ 0 0 rfl g2' hb3 (by simp; omega) (by omega) (by omega)
    have htb : tb1 = tb := by
      apply List.ext_getElem?
      intro k
      rw [hget2 k]
      by_cases c : k < 4 * xs.length
      · rw [if_pos ⟨by omega, c⟩]
      · rw [if_neg (by omega), List.getElem?_eq_none (by simp; omega),
          List.getElem?_eq_none (by omega)]
    subst htb
    refine ⟨List.set (List.set (h ++ [List.replicate x.n_.toNat none] ++
        [List.replicate (4 * x.n_).toNat none]) h.length (xs.map some)) (h.length + 1) tb1,
      ⟨⟨some h.length, 0⟩, ⟨some (h.length + 1), 0⟩, x.n_⟩, ?_,
      ⟨hn, fun _ => ⟨h.length, h.length + 1, tb1, s, rfl, rfl, by omega,
      ?_, ?_, htl, hnode⟩⟩, ?_, ?_, rfl⟩
    · rw [SegmentTree.copy]
      simp only [Heap.alloc, if_neg e1, if_neg e2, Option.some_bind, List.length_append,
        List.length_singleton]
      rw [hc, ht, hloop1]
      simp only [Option.some_bind]
      rw [hloop2]
      simp only [Option.some_bind]
    · rw [get_set_other _ _ _ _ (by omega)]
      exact get_set_self _ _ _ _ g1
    · exact get_set_self _ _ _ _ g2'
    · simp
    · intro c hc
      rw [get_set_other _ _ _ _ (by omega), get_set_other _ _ _ _ (by omega), g3 c hc]

theorem assign_eq_copy {T : Type} (h : Heap T) (this x : SegmentTree) (hne : this ≠ x) :
    SegmentTree.assign h this x = SegmentTree.copy h x := by
  simp only [SegmentTree.assign, SegmentTree.copy, if_neg hne]

theorem valid_frame {T : Type} [Add T] (h h1 : Heap T) (t : SegmentTree) (xs : List T)
    (hv : Valid h t xs) (hc : ∀ a, t.cont_.blk = some a → h1[a]? = h[a]?)
    (ht : ∀ b, t.tree_.blk = some b → h1[b]? = h[b]?) : Valid h1 t xs := by
  obtain ⟨hn, hrep⟩ := hv
  refine ⟨hn, fun hne => ?_⟩
  obtain ⟨a, b, tb, s, hca, htb, hab, ha, hb, htl, hnode⟩ := hrep hne
  refine ⟨a, b, tb, s, hca, htb, hab, ?_, ?_, htl, hnode⟩
  · rw [hc a (by rw [hca])]; exact ha
  · rw [ht b (by rw [htb])]; exact hb

theorem update_some {T : Type} [Add T] [IntCast T] [LE T]
    [DecidableRel (LE.le : T → T → Prop)] (h h1 : Heap T) (t : SegmentTree) (xs : List T)
    (hv : Valid h t xs) (index : Int) (newVal : T)
    (hu : update h t index newVal = some h1) :
    (h1 = h ∧ ¬ (t.n_ > 0 ∧ (index : T) ≤ newVal)) ∨
    (0 ≤ index ∧ index < t.n_ ∧ (index : T) ≤ newVal) := by
  by_cases hg : t.n_ > 0 ∧ (index : T) ≤ newVal
  · right
    have hne : xs ≠ [] := valid_nonempty hv hg.1
    obtain ⟨hlen, hrep⟩ := hv
    obtain ⟨a, b, tb, s, hc, _, _, ha, _, _, _⟩ := hrep hne
    by_cases hin : 0 ≤ index ∧ index < t.n_
    · exact ⟨hin.1, hin.2, hg.2⟩
    · exfalso
      have hno : ¬ (0 ≤ index ∧ index.toNat < xs.length) := by omega
      rw [update, if_pos hg, hc] at hu
      simp [Heap.store, Ptr.add, ha, hno] at hu
  · left
    rw [update, if_neg hg] at hu
    exact ⟨(Option.some.inj hu).symm, hg⟩

theorem reachable_valid {T : Type} [Add T] [IntCast T] [LE T]
    [DecidableRel (LE.le : T → T → Prop)] {h : Heap T} {t : SegmentTree}
    (hr : Reachable h t) : ∃ xs : List T, Valid h t xs := by
  induction hr with
  | new h => exact ⟨[], rfl, fun hne => absurd rfl hne⟩
  | @from_array h h1 input n t hs =>
    obtain ⟨h0, hn⟩ := from_array_some h h1 input n t hs
    obtain ⟨h2, t2, he, hv, _⟩ := from_array_ok h input n h0 hn
    rw [hs] at he
    cases he
    exact ⟨_, hv⟩
  | @from_range h h1 range t hs =>
    obtain ⟨h2, t2, he, hv, _⟩ := from_range_ok h range
    rw [hs] at he
    cases he
    exact ⟨_, hv⟩
  | @copy h h1 x t _ hs ih =>
    obtain ⟨xs, hvx⟩ := ih
    obtain ⟨h2, t2, he, hv, _⟩ := copy_ok h x xs hvx
    rw [hs] at he
    cases he
    exact ⟨_, hv⟩
  | @assign h h1 this x t _ hne hs ih =>
    obtain ⟨xs, hvx⟩ := ih
    obtain ⟨h2, t2, he, hv, _⟩ := copy_ok h x xs hvx
    rw [assign_eq_copy h this x hne] at hs
    rw [hs] at he
    cases he
    exact ⟨_, hv⟩
  | @update h h1 t index newVal _ hu ih =>
    obtain ⟨xs, hv⟩ := ih
    rcases update_some h h1 t xs hv index newVal hu with ⟨e, _⟩ | ⟨h0, hn, hg⟩
    · rw [e]; exact ⟨xs, hv⟩
    · obtain ⟨h2, he, hv2, _⟩ := update_ok h t xs hv index newVal h0 hn hg
      rw [hu] at he
      cases he
      exact ⟨_, hv2⟩
  | @frame h h1 t _ hc ht ih =>
    obtain ⟨xs, hv⟩ := ih
    exact ⟨xs, valid_frame h h1 t xs hv hc ht⟩

/-! ## Observations depend only on the blocks a tree owns -/

theorem valid_elems {T : Type} [Add T] {h : Heap T} {t : SegmentTree} {xs : List T}
    (hv : Valid h t xs) : Elems h t xs := by
  refine ⟨hv.1, fun i hi => ?_⟩
  have hne : xs ≠ [] := List.length_pos.1 (by omega)
  obtain ⟨a, b, tb, s, hc, _, _, ha, _⟩ := hv.2 hne
  rw [elem, hc, load_at h a _ ha (i : Int) i rfl, List.getElem?_map,
    List.getElem?_eq_getElem hi]
  rfl

theorem elems_unique {T : Type} {h : Heap T} {t : SegmentTree} {xs ys : List T}
    (hx : Elems h t xs) (hy : Elems h t ys) : xs = ys := by
  have hlen : xs.length = ys.length := by
    have := hx.1
    have := hy.1
    omega
  apply List.ext_getElem?
  intro k
  by_cases hk : k < xs.length
  · rw [← hx.2 k hk, ← hy.2 k (by omega)]
  · rw [List.getElem?_eq_none (by omega), List.getElem?_eq_none (by omega)]

theorem load_congr {T : Type} (h h1 : Heap T) (p : Ptr)
    (hp : ∀ b, p.blk = some b → h1[b]? = h[b]?) : h1.load p = h.load p := by
  rcases p with ⟨blk, off⟩
  cases blk with
  | none => rfl
  | some b =>
    have := hp b rfl
    simp [Heap.load, Heap.slot, this]

theorem elem_congr {T : Type} (h h1 : Heap T) (t : SegmentTree)
    (hp : ∀ a, t.cont_.blk = some a → h1[a]? = h[a]?) (i : Int) :
    elem h1 t i = elem h t i :=
  load_congr h h1 _ hp

theorem sum_util_congr {T : Type} [Add T] [Zero T] (h h1 : Heap T) (t : SegmentTree)
    (hp : ∀ b, t.tree_.blk = some b → h1[b]? = h[b]?) :
    ∀ (fuel : Nat) (ql qr v l r : Int),
      sum_util t h1 fuel ql qr v l r = sum_util t h fuel ql qr v l r := by
  intro fuel
  induction fuel with
  | zero => intro ql qr v l r; rfl
  | succ fuel ih =>
    intro ql qr v l r
    rw [sum_util, sum_util, load_congr h h1 (t.tree_.add v) hp]
    simp only [ih]

theorem sum_congr {T : Type} [Add T] [Zero T] (h h1 : Heap T) (t : SegmentTree)
    (hp : ∀ b, t.tree_.blk = some b → h1[b]? = h[b]?) (l r : Int) :
    sum h1 t l r = sum h t l r := by
  rw [sum, sum, sum_util_congr h h1 t hp]

/-! ## `count` and `find` -/

theorem ptr_add_zero (p : Ptr) : p.add 0 = p := by
  simp [Ptr.add]

theorem count_loop_ok {T : Type} [DecidableEq T] (h : Heap T) (a : Nat) (xs : List T)
    (ha : h[a]? = some (xs.map some)) (key : T) :
    ∀ (fuel i : Nat) (P c : Int), P = i → i + fuel = xs.length →
      count_loop h ⟨⟨some a, (xs.length : Int)⟩⟩ key fuel ⟨⟨some a, P⟩⟩ c =
        some (c + ((xs.drop i).count key : Nat)) := by
  intro fuel
  induction fuel with
  | zero =>
    intro i P c hP hi
    have e : P = (xs.length : Int) := by omega
    have hd : xs.drop i = [] := List.drop_eq_nil_of_le (by omega)
    simp [count_loop, Iterator.op_ne, Iterator.op_eq, e, hd]
  | succ fuel ih =>
    intro i P c hP hi
    have hlt : i < xs.length := by omega
    have hne : (⟨⟨some a, P⟩⟩ : Iterator).op_ne ⟨⟨some a, (xs.length : Int)⟩⟩ = true := by
      have : ¬ P = (xs.length : Int) := by omega
      simp [Iterator.op_ne, Iterator.op_eq, this]
    have hld : (⟨⟨some a, P⟩⟩ : Iterator).op_deref h = some xs[i] := by
      have hn : ¬ P < 0 := by omega
      have e : P.toNat = i := by omega
      simp [Iterator.op_deref, Heap.load, Heap.slot, ha, hn, e, hlt]
    rw [count_loop, if_pos hne, hld]
    simp only [Option.some_bind, Iterator.op_inc, Ptr.add]
    rw [ih (i + 1) (P + 1) _ (by omega) (by omega), List.drop_eq_getElem_cons hlt,
      List.count_cons]
    by_cases hk : xs[i] = key
    · simp [hk]
      omega
    · simp [hk]

theorem find_loop_ok {T : Type} [DecidableEq T] (h : Heap T) (a : Nat) (xs : List T)
    (ha : h[a]? = some (xs.map some)) (key : T) :
    ∀ (fuel i : Nat) (P : Int), P = i → i + fuel = xs.length →
      ∃ k : Nat, i ≤ k ∧ k ≤ xs.length ∧
        find_loop h ⟨⟨some a, (xs.length : Int)⟩⟩ key fuel ⟨⟨some a, P⟩⟩ =
          some ⟨⟨some a, (k : Int)⟩⟩ ∧
        (∀ j, i ≤ j → j < k → xs[j]? ≠ some key) ∧ (k < xs.length → xs[k]? = some key) := by
  intro fuel
  induction fuel with
  | zero =>
    intro i P hP hi
    have e : P = (xs.length : Int) := by omega
    refine ⟨i, le_refl _, by omega, ?_, fun j h1 h2 => by omega, fun hh => by omega⟩
    simp [find_loop, Iterator.op_ne, Iterator.op_eq, e, hP]
    omega
  | succ fuel ih =>
    intro i P hP hi
    have hlt : i < xs.length := by omega
    have hne : (⟨⟨some a, P⟩⟩ : Iterator).op_ne ⟨⟨some a, (xs.length : Int)⟩⟩ = true := by
      have : ¬ P = (xs.length : Int) := by omega
      simp [Iterator.op_ne, Iterator.op_eq, this]
    have hld : (⟨⟨some a, P⟩⟩ : Iterator).op_deref h = some xs[i] := by
      have hn : ¬ P < 0 := by omega
      have e : P.toNat = i := by omega
      simp [Iterator.op_deref, Heap.load, Heap.slot, ha, hn, e, hlt]
    rw [find_loop, if_pos hne, hld]
    simp only [Option.some_bind, Iterator.op_inc, Ptr.add]
    by_cases hk : xs[i] = key
    · refine ⟨i, le_refl _, by omega, ?_, fun j h1 h2 => by omega, fun _ => ?_⟩
      · rw [if_neg (by simpa using hk), hP]
      · rw [List.getElem?_eq_getElem hlt, hk]
    · obtain ⟨k, hk1, hk2, hfind, hbefore, hat⟩ := ih (i + 1) (P + 1) (by omega) (by omega)
      refine ⟨k, by omega, hk2, ?_, ?_, hat⟩
      · rw [if_pos hk]
        exact hfind
      · intro j h1 h2
        by_cases hji : j = i
        · subst hji
          rw [List.getElem?_eq_getElem hlt]
          simpa using hk
        · exact hbefore j (by omega) h2

theorem matchCount_eq {T : Type} [DecidableEq T] (h : Heap T) (t : SegmentTree)
    (xs : List T) (he : Elems h t xs) (key : T) : matchCount h t key = xs.count key := by
  have hn : t.n_.toNat = xs.length := by
    have := he.1
    omega
  have key_lemma : ∀ n, n ≤ xs.length →
      ((List.range n).filter fun i : Nat => decide (elem h t (i : Int) = some key)).length =
        (xs.take n).count key := by
    intro n
    induction n with
    | zero => intro _; simp
    | succ n ih =>
      intro hle
      have hlt : n < xs.length := by omega
      have hel := he.2 n hlt
      rw [List.getElem?_eq_getElem hlt] at hel
      rw [List.range_succ, List.filter_append, List.length_append, ih (by omega),
        List.take_succ, List.count_append, List.getElem?_eq_getElem hlt]
      by_cases hk : xs[n] = key
      · simp [hk, hel, List.filter_cons]
      · have hk2 : ¬ key = xs[n] := fun e => hk e.symm
        simp [hk, hk2, hel, List.filter_cons, List.count_cons]
  rw [matchCount, hn, key_lemma xs.length (le_refl _), List.take_length]

theorem count_ok {T : Type} [Add T] [DecidableEq T] (h : Heap T) (t : SegmentTree)
    (xs : List T) (hv : Valid h t xs) (key : T) :
    count h t key = some ((xs.count key : Nat) : Int) := by
  by_cases hne : xs = []
  · have hz : t.n_ = 0 := by rw [hv.1, hne]; rfl
    simp [count, count_loop, hz, hne, SegmentTree.begin, SegmentTree.end_, ptr_add_zero,
      Iterator.op_ne, Iterator.op_eq]
  · obtain ⟨a, b, tb, s, hc, _, _, ha, _⟩ := hv.2 hne
    have hn := hv.1
    have hend : t.end_ = ⟨⟨some a, (xs.length : Int)⟩⟩ := by
      simp [SegmentTree.end_, Ptr.add, hc, hn]
    have hbeg : t.begin = ⟨⟨some a, 0⟩⟩ := by
      simp [SegmentTree.begin, hc]
    have hfuel : t.n_.toNat = xs.length := by omega
    rw [count, hend, hbeg, hfuel,
      count_loop_ok h a xs ha key xs.length 0 0 0 rfl (by omega)]
    simp

theorem find_ok {T : Type} [Add T] [DecidableEq T] (h : Heap T) (t : SegmentTree)
    (xs : List T) (hv : Valid h t xs) (key : T) :
    ∃ k : Nat, k ≤ xs.length ∧ find h t key = some (t.begin.op_add k) ∧
      (∀ j, j < k → xs[j]? ≠ some key) ∧ (k < xs.length → xs[k]? = some key) := by
  by_cases hne : xs = []
  · have hz : t.n_ = 0 := by rw [hv.1, hne]; rfl
    refine ⟨0, by omega, ?_, fun j hj => by omega, fun hh => ?_⟩
    · simp [find, find_loop, hz, SegmentTree.begin, SegmentTree.end_, ptr_add_zero,
        Iterator.op_ne, Iterator.op_eq, Iterator.op_add]
    · rw [hne] at hh
      simp at hh
  · obtain ⟨a, b, tb, s, hc, _, _, ha, _⟩ := hv.2 hne
    have hn := hv.1
    have hend : t.end_ = ⟨⟨some a, (xs.length : Int)⟩⟩ := by
      simp [SegmentTree.end_, Ptr.add, hc, hn]
    have hbeg : t.begin = ⟨⟨some a, 0⟩⟩ := by
      simp [SegmentTree.begin, hc]
    have hfuel : t.n_.toNat = xs.length := by omega
    obtain ⟨k, _, hk2, hfind, hbefore, hat⟩ :=
      find_loop_ok h a xs ha key xs.length 0 0 rfl (by omega)
    refine ⟨k, hk2, ?_, fun j hj => hbefore j (by omega) hj, hat⟩
    rw [find, hend, hbeg, hfuel, hfind]
    simp [Iterator.op_add, Ptr.add]

/-! ## The claims -/

/-- C2 (failing input): on the tree built from `[1, 2, 3, 4]`, `update(3, 2)` has a valid
index `0 ≤ 3 < 4`, yet the guard `index <= newVal` is false and the call changes nothing:
afterwards `elements[3]` is still `4`, not `2`, and `sum(0, 4)` is still `10`, not the
brute-force sum `8` of `[1, 2, 3, 2]`. -/
theorem update_guard_rejects_valid_index :
    ∃ (h1 h2 : Heap Int) (t : SegmentTree),
      SegmentTree.from_range ([] : Heap Int) [1, 2, 3, 4] = some (h1, t) ∧
      (0 : Int) ≤ 3 ∧ (3 : Int) < t.n_ ∧
      update h1 t 3 2 = some h2 ∧ h2 = h1 ∧
      elem h2 t 3 = some 4 ∧ sum h2 t 0 4 = some 10 ∧
      bruteSum (([1, 2, 3, 4] : List Int).set 3 2) 0 4 = 8 := by
  refine ⟨_, _, _, rfl, by decide, by decide, rfl, rfl, by decide, by decide, by decide⟩

/-- C3: for every tree (any heap, any members) and all integers `l`, `r`, `sum(l, r)`
returns `0` whenever `l ≥ r` or `n_ == 0`, whatever the values of `l` and `r`. -/
theorem sum_empty_range {T : Type} [Add T] [Zero T] (h : Heap T) (t : SegmentTree)
    (l r : Int) (hc : l ≥ r ∨ t.n_ = 0) : sum h t l r = some 0 := by
  have hg : ¬ (t.n_ > 0 ∧ l < r) := by omega
  rw [sum, if_neg hg]

theorem sum_empty_range_witness :
    ((7 : Int) ≥ -3 ∨ SegmentTree.new.n_ = 0) ∧
    sum ([] : Heap Int) SegmentTree.new 7 (-3) = some 0 :=
  ⟨Or.inl (by decide), sum_empty_range ([] : Heap Int) SegmentTree.new 7 (-3)
    (Or.inl (by decide))⟩

theorem store_frame {T : Type} (h h1 : Heap T) (p : Ptr) (s : Option T)
    (hs : h.store p s = some h1) :
    h1.length = h.length ∧ ∀ c, p.blk ≠ some c → h1[c]? = h[c]? := by
  rcases p with ⟨blk, off⟩
  cases blk with
  | none => simp [Heap.store] at hs
  | some a =>
    cases hb : h[a]? with
    | none => simp [Heap.store, hb] at hs
    | some b =>
      simp only [Heap.store, hb] at hs
      split at hs
      · cases hs
        refine ⟨by simp, fun c hc => ?_⟩
        have hne : c ≠ a := fun e => hc (by rw [e])
        exact get_set_other h c a _ hne
      · cases hs

theorem copy_loop_frame {T : Type} (dst src : Ptr) (n : Int) :
    ∀ (fuel : Nat) (h h1 : Heap T) (i : Int), copy_loop dst src n fuel h i = some h1 →
      h1.length = h.length ∧ ∀ c, dst.blk ≠ some c → h1[c]? = h[c]? := by
  intro fuel
  induction fuel with
  | zero =>
    intro h h1 i hs
    rw [copy_loop] at hs
    split at hs
    · cases hs
    · cases hs
      exact ⟨rfl, fun _ _ => rfl⟩
  | succ fuel ih =>
    intro h h1 i hs
    rw [copy_loop] at hs
    split at hs
    · obtain ⟨s, _, hs1⟩ := Option.bind_eq_some.1 hs
      obtain ⟨h2, hst, hrec⟩ := Option.bind_eq_some.1 hs1
      obtain ⟨hl2, hf2⟩ := store_frame h h2 (dst.add i) s hst
      obtain ⟨hl1, hf1⟩ := ih h2 h1 (i + 1) hrec
      exact ⟨by omega, fun c hc => by rw [hf1 c hc, hf2 c hc]⟩
    · cases hs
      exact ⟨rfl, fun _ _ => rfl⟩

theorem update_util_frame {T : Type} [Add T] (t : SegmentTree) (index : Int) (newVal : T) :
    ∀ (fuel : Nat) (h h1 : Heap T) (v l r : Int),
      update_util t index newVal fuel h v l r = some h1 →
      ∀ c, t.tree_.blk ≠ some c → h1[c]? = h[c]? := by
  intro fuel
  induction fuel with
  | zero =>
    intro h h1 v l r hs
    rw [update_util] at hs
    cases hs
  | succ fuel ih =>
    intro h h1 v l r hs c hc
    rw [update_util] at hs
    split at hs
    · exact (store_frame h h1 _ _ hs).2 c hc
    · obtain ⟨h2, hrec, hs1⟩ := Option.bind_eq_some.1 hs
      obtain ⟨a, _, hs2⟩ := Option.bind_eq_some.1 hs1
      obtain ⟨b, _, hs3⟩ := Option.bind_eq_some.1 hs2
      have hf3 := (store_frame h2 h1 _ _ hs3).2 c hc
      rw [hf3]
      split at hrec
      · exact ih h h2 _ _ _ hrec c hc
      · exact ih h h2 _ _ _ hrec c hc

theorem update_frame_any {T : Type} [Add T] [IntCast T] [LE T]
    [DecidableRel (LE.le : T → T → Prop)] (h h1 : Heap T) (t : SegmentTree) (index : Int)
    (newVal : T) (hu : update h t index newVal = some h1) :
    ∀ c, t.cont_.blk ≠ some c → t.tree_.blk ≠ some c → h1[c]? = h[c]? := by
  intro c hc1 hc2
  rw [update] at hu
  split at hu
  · obtain ⟨h2, hst, hrec⟩ := Option.bind_eq_some.1 hu
    rw [update_util_frame t index newVal _ h2 h1 _ _ _ hrec c hc2]
    exact (store_frame h h2 _ _ hst).2 c hc1
  · cases hu
    rfl

theorem assign_shape {T : Type} (h h1 : Heap T) (this x B : SegmentTree)
    (hs : SegmentTree.assign h this x = some (h1, B)) :
    B = ⟨⟨some h.length, 0⟩, ⟨some (h.length + 1), 0⟩, x.n_⟩ ∧
    ∀ c, c < h.length → h1[c]? = h[c]? := by
  by_cases hneg : x.n_ < 0
  · simp [SegmentTree.assign, Heap.alloc, hneg] at hs
  · have e2 : ¬ 4 * x.n_ < 0 := by omega
    obtain ⟨_, _, g3, _⟩ := alloc_two_get h (List.replicate x.n_.toNat none)
      (List.replicate (4 * x.n_).toNat (none : Option T))
    rw [SegmentTree.assign] at hs
    simp only [Heap.alloc, if_neg hneg, if_neg e2, Option.some_bind, List.length_append,
      List.length_singleton] at hs
    obtain ⟨h3, hl1, hs1⟩ := Option.bind_eq_some.1 hs
    obtain ⟨h4, hl2, hs2⟩ := Option.bind_eq_some.1 hs1
    cases hs2
    obtain ⟨_, hf1⟩ := copy_loop_frame _ _ _ _ _ _ _ hl1
    obtain ⟨_, hf2⟩ := copy_loop_frame _ _ _ _ _ _ _ hl2
    refine ⟨rfl, fun c hc => ?_⟩
    rw [hf2 c (by intro e; cases e; omega), hf1 c (by intro e; cases e; omega), g3 c hc]

theorem dup_sep {T : Type} [Add T] (h h1 : Heap T) (A : SegmentTree) (xs : List T)
    (hv : Valid h A xs) (hfr : ∀ c, c < h.length → h1[c]? = h[c]?) :
    Valid h1 A xs ∧
    (xs ≠ [] → ∃ a b, A.cont_.blk = some a ∧ A.tree_.blk = some b ∧
      a < h.length ∧ b < h.length) := by
  have hsep : xs ≠ [] → ∃ a b, A.cont_.blk = some a ∧ A.tree_.blk = some b ∧
      a < h.length ∧ b < h.length := by
    intro hne
    obtain ⟨a, b, tb, s, hc, ht, _, ha, hb, _⟩ := hv.2 hne
    exact ⟨a, b, by rw [hc], by rw [ht], (List.getElem?_eq_some.1 ha).1,
      (List.getElem?_eq_some.1 hb).1⟩
  refine ⟨?_, hsep⟩
  by_cases hne : xs = []
  · exact ⟨hv.1, fun hh => absurd hne hh⟩
  · obtain ⟨a, b, ha, hb, hal, hbl⟩ := hsep hne
    refine valid_frame h h1 A xs hv (fun a' ha' => ?_) (fun b' hb' => ?_)
    · rw [ha] at ha'
      cases ha'
      exact hfr a hal
    · rw [hb] at hb'
      cases hb'
      exact hfr b hbl

theorem copy_sep {T : Type} [Add T] (h h1 : Heap T) (A B : SegmentTree) (xs : List T)
    (hv : Valid h A xs) (hcopy : SegmentTree.copy h A = some (h1, B)) :
    Valid h1 A xs ∧ Valid h1 B xs ∧ B.n_ = A.n_ ∧
    B.cont_.blk = some h.length ∧ B.tree_.blk = some (h.length + 1) ∧
    (xs ≠ [] → ∃ a b, A.cont_.blk = some a ∧ A.tree_.blk = some b ∧
      a < h.length ∧ b < h.length) := by
  obtain ⟨h2, t2, he, hvB, _, hfr, ht2⟩ := copy_ok h A xs hv
  rw [hcopy] at he
  cases he
  have hsep : xs ≠ [] → ∃ a b, A.cont_.blk = some a ∧ A.tree_.blk = some b ∧
      a < h.length ∧ b < h.length := by
    intro hne
    obtain ⟨a, b, tb, s, hc, ht, _, ha, hb, _⟩ := hv.2 hne
    exact ⟨a, b, by rw [hc], by rw [ht], (List.getElem?_eq_some.1 ha).1,
      (List.getElem?_eq_some.1 hb).1⟩
  have hvA : Valid h1 A xs := by
    by_cases hne : xs = []
    · exact ⟨hv.1, fun hh => absurd hne hh⟩
    · obtain ⟨a, b, ha, hb, hal, hbl⟩ := hsep hne
      refine valid_frame h h1 A xs hv (fun a' ha' => ?_) (fun b' hb' => ?_)
      · rw [ha] at ha'
        cases ha'
        exact hfr a hal
      · rw [hb] at hb'
        cases hb'
        exact hfr b hbl
  refine ⟨hvA, hvB, by rw [ht2], by rw [ht2], by rw [ht2], hsep⟩

theorem update_frame {T : Type} [Add T] [IntCast T] [LE T]
    [DecidableRel (LE.le : T → T → Prop)] (h h1 : Heap T) (t : SegmentTree) (xs : List T)
    (hv : Valid h t xs) (index : Int) (newVal : T)
    (hu : update h t index newVal = some h1) :
    h1 = h ∨ (xs ≠ [] ∧
      ∀ c, t.cont_.blk ≠ some c → t.tree_.blk ≠ some c → h1[c]? = h[c]?) := by
  rcases update_some h h1 t xs hv index newVal hu with ⟨e, _⟩ | ⟨h0, hn, hg⟩
  · exact Or.inl e
  · obtain ⟨h2, he, _, _, hfr⟩ := update_ok h t xs hv index newVal h0 hn hg
    rw [hu] at he
    cases he
    exact Or.inr ⟨valid_nonempty hv (by omega), hfr⟩

/-- C4: after `B` is made as a copy of the tree `A` (copy constructor or `operator=`), an
`update` applied to `A` leaves every element `cont_[i]` of `B` and every `sum(l, r)` of `B`
unchanged, and an `update` applied to `B` leaves every element and every sum of `A`
unchanged. -/
theorem copy_independent {T : Type} [Add T] [Zero T] [IntCast T] [LE T]
    [DecidableRel (LE.le : T → T → Prop)] (h h1 h2 : Heap T) (A B : SegmentTree)
    (index : Int) (newVal : T) (hA : Reachable h A)
    (hcopy : SegmentTree.copy h A = some (h1, B) ∨
      ∃ this : SegmentTree, SegmentTree.assign h this A = some (h1, B)) :
    (update h1 A index newVal = some h2 →
      (∀ i, elem h2 B i = elem h1 B i) ∧ ∀ l r, sum h2 B l r = sum h1 B l r) ∧
    (update h1 B index newVal = some h2 →
      (∀ i, elem h2 A i = elem h1 A i) ∧ ∀ l r, sum h2 A l r = sum h1 A l r) := by
  obtain ⟨xs, hv⟩ := reachable_valid hA
  have hshape : B = ⟨⟨some h.length, 0⟩, ⟨some (h.length + 1), 0⟩, A.n_⟩ ∧
      ∀ c, c < h.length → h1[c]? = h[c]? := by
    rcases hcopy with hc | ⟨this, hc⟩
    · obtain ⟨h3, t3, he, _, _, hfr, ht3⟩ := copy_ok h A xs hv
      rw [hc] at he
      cases he
      exact ⟨ht3, hfr⟩
    · exact assign_shape h h1 this A B hc
  obtain ⟨hB, hfr0⟩ := hshape
  obtain ⟨hvA, hsep⟩ := dup_sep h h1 A xs hv hfr0
  have hBc : B.cont_.blk = some h.length := by rw [hB]
  have hBt : B.tree_.blk = some (h.length + 1) := by rw [hB]
  have hBn : B.n_ = A.n_ := by rw [hB]
  constructor
  · intro hu
    rcases update_frame h1 h2 A xs hvA index newVal hu with e | ⟨hne, hfr⟩
    · rw [e]
      exact ⟨fun _ => rfl, fun _ _ => rfl⟩
    · obtain ⟨a, b, ha, hb, hal, hbl⟩ := hsep hne
      have hc1 : h2[h.length]? = h1[h.length]? :=
        hfr _ (by rw [ha]; intro e; cases e; omega) (by rw [hb]; intro e; cases e; omega)
      have hc2 : h2[h.length + 1]? = h1[h.length + 1]? :=
        hfr _ (by rw [ha]; intro e; cases e; omega) (by rw [hb]; intro e; cases e; omega)
      refine ⟨fun i => elem_congr h1 h2 B (fun c hc => ?_) i,
        fun l r => sum_congr h1 h2 B (fun c hc => ?_) l r⟩
      · rw [hBc] at hc
        cases hc
        exact hc1
      · rw [hBt] at hc
        cases hc
        exact hc2
  · intro hu
    by_cases hpos : 0 < B.n_
    · have hne : xs ≠ [] := valid_nonempty hv (by omega)
      have hfr := update_frame_any h1 h2 B index newVal hu
      obtain ⟨a, b, ha, hb, hal, hbl⟩ := hsep hne
      have hc1 : h2[a]? = h1[a]? :=
        hfr _ (by rw [hBc]; intro e; cases e; omega) (by rw [hBt]; intro e; cases e; omega)
      have hc2 : h2[b]? = h1[b]? :=
        hfr _ (by rw [hBc]; intro e; cases e; omega) (by rw [hBt]; intro e; cases e; omega)
      refine ⟨fun i => elem_congr h1 h2 A (fun c hc => ?_) i,
        fun l r => sum_congr h1 h2 A (fun c hc => ?_) l r⟩
      · rw [ha] at hc
        cases hc
        exact hc1
      · rw [hb] at hc
        cases hc
        exact hc2
    · rw [update] at hu
      split at hu
      · rename_i hg
        exact absurd hg.1 hpos
      · cases hu
        exact ⟨fun _ => rfl, fun _ _ => rfl⟩

theorem sample_reachable : Reachable sampleHeap sampleTree :=
  @Reachable.from_range Int _ _ _ _ [] sampleHeap [3, 1, 3] sampleTree (by decide)

theorem copy_independent_witness :
    Reachable sampleHeap sampleTree ∧
    (SegmentTree.copy sampleHeap sampleTree = some (sampleHeapCopied, sampleCopy) ∨
      ∃ this : SegmentTree,
        SegmentTree.assign sampleHeap this sampleTree = some (sampleHeapCopied, sampleCopy)) ∧
    (∀ h2 : Heap Int,
      (update sampleHeapCopied sampleTree 1 5 = some h2 →
        (∀ i, elem h2 sampleCopy i = elem sampleHeapCopied sampleCopy i) ∧
        ∀ l r, sum h2 sampleCopy l r = sum sampleHeapCopied sampleCopy l r) ∧
      (update sampleHeapCopied sampleCopy 1 5 = some h2 →
        (∀ i, elem h2 sampleTree i = elem sampleHeapCopied sampleTree i) ∧
        ∀ l r, sum h2 sampleTree l r = sum sampleHeapCopied sampleTree l r)) ∧
    (update sampleHeapCopied sampleTree 1 5).isSome = true ∧
    (update sampleHeapCopied sampleCopy 1 5).isSome = true ∧
    update sampleHeapCopied sampleTree 1 5 ≠ some sampleHeapCopied :=
  ⟨sample_reachable, Or.inl (by decide),
    fun h2 => copy_independent sampleHeap sampleHeapCopied h2 sampleTree sampleCopy 1 5
      sample_reachable (Or.inl (by decide)),
    by decide, by decide, by decide⟩

theorem sum_empty_range_aux {T : Type} [Add T] [Zero T] (h : Heap T) (t : SegmentTree)
    (l r : Int) (hz : t.n_ = 0) : sum h t l r = some 0 := by
  have hg : ¬ (t.n_ > 0 ∧ l < r) := by omega
  rw [sum, if_neg hg]

/-- A copy of a tree `A` made by the copy constructor, or by `operator=` applied to an
object other than `A`, has the same size, the same element at every index, the same
`count(key)` for every key and the same `sum(l, r)` for every `0 ≤ l ≤ r ≤ n` as `A`. -/
theorem copy_same {T : Type} [AddMonoid T] [DecidableEq T] [IntCast T] [LE T]
    [DecidableRel (LE.le : T → T → Prop)] (h : Heap T) (A : SegmentTree)
    (hA : Reachable h A) :
    ∃ (h1 : Heap T) (B : SegmentTree), SegmentTree.copy h A = some (h1, B) ∧
      (∀ this : SegmentTree, this ≠ A → SegmentTree.assign h this A = some (h1, B)) ∧
      B.size = A.size ∧
      (∀ i : Int, 0 ≤ i → i < A.n_ → ∃ x : T, elem h1 A i = some x ∧ elem h1 B i = some x) ∧
      (∀ key : T, ∃ c : Int, count h1 A key = some c ∧ count h1 B key = some c) ∧
      (∀ l r : Int, 0 ≤ l → l ≤ r → r ≤ A.n_ →
        ∃ s : T, sum h1 A l r = some s ∧ sum h1 B l r = some s) := by
  obtain ⟨xs, hv⟩ := reachable_valid hA
  obtain ⟨h1, B, hcopy, _⟩ := copy_ok h A xs hv
  obtain ⟨hvA, hvB, hn, _⟩ := copy_sep h h1 A B xs hv hcopy
  refine ⟨h1, B, hcopy, fun this hne => by rw [assign_eq_copy h this A hne]; exact hcopy,
    hn, ?_, ?_, ?_⟩
  · intro i h0 hi
    have hlen := hvA.1
    have hi2 : i.toNat < xs.length := by omega
    have e : ((i.toNat : Nat) : Int) = i := by omega
    refine ⟨xs[i.toNat], ?_, ?_⟩
    · have := (valid_elems hvA).2 i.toNat hi2
      rw [e, List.getElem?_eq_getElem hi2] at this
      exact this
    · have := (valid_elems hvB).2 i.toNat hi2
      rw [e, List.getElem?_eq_getElem hi2] at this
      exact this
  · intro key
    exact ⟨_, count_ok h1 A xs hvA key, count_ok h1 B xs hvB key⟩
  · intro l r h0 _ hr
    exact ⟨_, sum_ok h1 A xs hvA l r h0 hr, sum_ok h1 B xs hvB l r h0 (by rw [hn]; exact hr)⟩

/-- C5 (failing input): the self-assignment `a = a` of the tree `a` built from `[3, 1, 3]`.
`operator=` replaces `cont_` and `tree_` by fresh blocks before its loops read `x.cont_[i]`
and `x.tree_[i]`, which are then the fresh blocks themselves.  The call returns and the size
is still `3`, but every slot of the two blocks holds an indeterminate value: `cont_[i]`,
`count(3)` and `sum(0, 3)` no longer have a result, where before the assignment they were
`3, 1, 3`, `2` and `7`. -/
theorem self_assign_loses_elements :
    SegmentTree.from_range ([] : Heap Int) [3, 1, 3] = some (sampleHeap, sampleTree) ∧
    SegmentTree.assign sampleHeap sampleTree sampleTree =
      some (sampleHeapSelfAssigned, sampleSelfAssigned) ∧
    sampleSelfAssigned.size = sampleTree.size ∧
    elem sampleHeap sampleTree 0 = some 3 ∧ elem sampleHeap sampleTree 1 = some 1 ∧
    elem sampleHeap sampleTree 2 = some 3 ∧
    count sampleHeap sampleTree 3 = some 2 ∧ sum sampleHeap sampleTree 0 3 = some 7 ∧
    elem sampleHeapSelfAssigned sampleSelfAssigned 0 = none ∧
    elem sampleHeapSelfAssigned sampleSelfAssigned 1 = none ∧
    elem sampleHeapSelfAssigned sampleSelfAssigned 2 = none ∧
    count sampleHeapSelfAssigned sampleSelfAssigned 3 = none ∧
    sum sampleHeapSelfAssigned sampleSelfAssigned 0 3 = none := by
  refine ⟨by decide, by decide, by decide, by decide, by decide, by decide, by decide,
    by decide, by decide, by decide, by decide, by decide, by decide⟩

/-- C6: for every input sequence, the tree constructed from it has `size()` equal to the
number `n` of elements taken, `empty()` true exactly when `n == 0`, and `cont_[i]` equal to
the `i`-th input element for every `0 ≤ i < n`.  This holds for the range constructor
(`n` is the length of the range) and for the constructor from a buffer and a count
(`n` is the count, at most the length of the buffer). -/
theorem ctor_elements {T : Type} [Add T] (h : Heap T) (input : List T) :
    (∃ (h1 : Heap T) (t : SegmentTree), SegmentTree.from_range h input = some (h1, t) ∧
      t.size = input.length ∧ (t.empty = true ↔ input.length = 0) ∧
      ∀ i : Nat, i < input.length → elem h1 t i = input[i]?) ∧
    (∀ n : Nat, n ≤ input.length →
      ∃ (h1 : Heap T) (t : SegmentTree), SegmentTree.from_array h input n = some (h1, t) ∧
        t.size = n ∧ (t.empty = true ↔ n = 0) ∧
        ∀ i : Nat, i < n → elem h1 t i = input[i]?) := by
  constructor
  · obtain ⟨h1, t, he, hv, _, _, ht⟩ := from_range_ok h input
    refine ⟨h1, t, he, by rw [ht]; rfl, ?_, (valid_elems hv).2⟩
    rw [ht]
    simp [SegmentTree.empty]
  · intro n hn
    obtain ⟨h1, t, he, hv, _, _, ht⟩ := from_array_ok h input n (by omega) (by omega)
    refine ⟨h1, t, he, by rw [ht]; rfl, ?_, ?_⟩
    · rw [ht]
      simp [SegmentTree.empty]
    · intro i hi
      have hlen : (input.take (n : Int).toNat).length = n := by
        rw [List.length_take]
        omega
      have := (valid_elems hv).2 i (by omega)
      rw [this, List.getElem?_take, if_pos (by omega)]

theorem ctor_elements_witness :
    SegmentTree.from_range ([] : Heap Int) [3, 1, 3] = some (sampleHeap, sampleTree) ∧
    (2 : Nat) ≤ ([3, 1, 3] : List Int).length ∧
    ∃ (h1 : Heap Int) (t : SegmentTree),
      SegmentTree.from_array ([] : Heap Int) [3, 1, 3] (2 : Nat) = some (h1, t) ∧
        t.size = (2 : Nat) ∧ (t.empty = true ↔ 2 = 0) ∧
        ∀ i : Nat, i < 2 → elem h1 t i = ([3, 1, 3] : List Int)[i]? :=
  ⟨by decide, by decide, (ctor_elements ([] : Heap Int) [3, 1, 3]).2 2 (by decide)⟩

/-- C7 (counterexample): with the count `-1` the constructor from a buffer and a count does
not yield an empty container: `new T[-1]` fails and no tree object is produced. -/
theorem from_array_negative_count :
    ¬ ∃ (h1 : Heap Int) (t : SegmentTree),
      SegmentTree.from_array ([] : Heap Int) [] (-1) = some (h1, t) ∧
      t.size = 0 ∧ t.empty = true := by
  rintro ⟨h1, t, he, _⟩
  have hnone : SegmentTree.from_array ([] : Heap Int) [] (-1) = none := by decide
  rw [hnone] at he
  cases he

/-- C7 (amended): constructing a tree from a raw buffer and the count `0` yields an empty
container: `size() == 0`, `empty()` is true and `sum(l, r) == 0` for all `l`, `r`; for a
negative count the allocation `new T[count]` fails and no container is constructed. -/
theorem from_array_zero_count {T : Type} [Add T] [Zero T] (h : Heap T) (input : List T) :
    (∃ (h1 : Heap T) (t : SegmentTree), SegmentTree.from_array h input 0 = some (h1, t) ∧
      t.size = 0 ∧ t.empty = true ∧ ∀ l r : Int, sum h1 t l r = some 0) ∧
    ∀ n : Int, n < 0 → SegmentTree.from_array h input n = none := by
  constructor
  · obtain ⟨h1, t, he, _, _, _, ht⟩ := from_array_ok h input 0 (le_refl _) (by omega)
    refine ⟨h1, t, he, by rw [ht]; rfl, by rw [ht]; rfl, fun l r => ?_⟩
    exact sum_empty_range_aux h1 t l r (by rw [ht])
  · intro n hn
    simp [SegmentTree.from_array, Heap.alloc, hn]

theorem from_array_zero_count_witness :
    (∃ (h1 : Heap Int) (t : SegmentTree),
      SegmentTree.from_array ([] : Heap Int) [5, 6] 0 = some (h1, t) ∧
      t.size = 0 ∧ t.empty = true ∧ ∀ l r : Int, sum h1 t l r = some 0) ∧
    ∀ n : Int, n < 0 → SegmentTree.from_array ([] : Heap Int) [5, 6] n = none :=
  from_array_zero_count ([] : Heap Int) [5, 6]

/-- C8: for every tree and every key, `count(key)` returns the number of indices `i` in
`[0, n)` with `cont_[i] == key`. -/
theorem count_correct {T : Type} [Add T] [DecidableEq T] [IntCast T] [LE T]
    [DecidableRel (LE.le : T → T → Prop)] (h : Heap T) (t : SegmentTree)
    (hr : Reachable h t) (key : T) :
    count h t key = some ((matchCount h t key : Nat) : Int) := by
  obtain ⟨xs, hv⟩ := reachable_valid hr
  rw [count_ok h t xs hv key, matchCount_eq h t xs (valid_elems hv) key]

theorem count_correct_witness :
    Reachable sampleHeap sampleTree ∧ matchCount sampleHeap sampleTree (3 : Int) = 2 ∧
    count sampleHeap sampleTree (3 : Int) =
      some ((matchCount sampleHeap sampleTree (3 : Int) : Nat) : Int) :=
  ⟨sample_reachable, by decide, count_correct sampleHeap sampleTree sample_reachable 3⟩

/-- C9: for every tree and every key, `find(key)` returns the cursor `begin() + k` where
`k ≤ n` is such that no index `j < k` holds `key` and, when `k < n`, `cont_[k] == key`
(so `k` is the smallest index holding `key`); when no element equals `key`, `k` is `n` and
the result is `end()`. -/
theorem find_first {T : Type} [Add T] [DecidableEq T] [IntCast T] [LE T]
    [DecidableRel (LE.le : T → T → Prop)] (h : Heap T) (t : SegmentTree)
    (hr : Reachable h t) (key : T) :
    ∃ k : Nat, (k : Int) ≤ t.n_ ∧ find h t key = some (t.begin.op_add k) ∧
      (∀ j : Nat, j < k → elem h t j ≠ some key) ∧
      ((k : Int) < t.n_ → elem h t k = some key) ∧
      ((∀ j : Nat, (j : Int) < t.n_ → elem h t j ≠ some key) →
        find h t key = some t.end_) := by
  obtain ⟨xs, hv⟩ := reachable_valid hr
  obtain ⟨k, hk, hfind, hbefore, hat⟩ := find_ok h t xs hv key
  have hel := valid_elems hv
  have hn := hv.1
  refine ⟨k, by omega, hfind, ?_, ?_, ?_⟩
  · intro j hj
    rw [hel.2 j (by omega)]
    exact hbefore j hj
  · intro hlt
    rw [hel.2 k (by omega)]
    exact hat (by omega)
  · intro hnone
    have hkn : k = xs.length := by
      by_contra hne
      have hlt : k < xs.length := by omega
      have := hnone k (by omega)
      rw [hel.2 k hlt] at this
      exact this (hat hlt)
    rw [hfind, hkn, ← hn]
    rfl

theorem find_first_witness :
    Reachable sampleHeap sampleTree ∧
    find sampleHeap sampleTree (1 : Int) = some (sampleTree.begin.op_add 1) ∧
    find sampleHeap sampleTree (8 : Int) = some sampleTree.end_ ∧
    ∃ k : Nat, (k : Int) ≤ sampleTree.n_ ∧
      find sampleHeap sampleTree (1 : Int) = some (sampleTree.begin.op_add k) ∧
      (∀ j : Nat, j < k → elem sampleHeap sampleTree j ≠ some 1) ∧
      ((k : Int) < sampleTree.n_ → elem sampleHeap sampleTree k = some 1) ∧
      ((∀ j : Nat, (j : Int) < sampleTree.n_ → elem sampleHeap sampleTree j ≠ some 1) →
        find sampleHeap sampleTree (1 : Int) = some sampleTree.end_) :=
  ⟨sample_reachable, by decide, by decide,
    find_first sampleHeap sampleTree sample_reachable 1⟩

/-- C10: for every tree and every key, `find(key)` and `count(key)` both return, and
`find(key) == end()` holds if and only if `count(key) == 0`. -/
theorem find_end_iff_count_zero {T : Type} [Add T] [DecidableEq T] [IntCast T] [LE T]
    [DecidableRel (LE.le : T → T → Prop)] (h : Heap T) (t : SegmentTree)
    (hr : Reachable h t) (key : T) :
    ∃ (it : Iterator) (c : Int), find h t key = some it ∧ count h t key = some c ∧
      (it.op_eq t.end_ = true ↔ c = 0) := by
  obtain ⟨xs, hv⟩ := reachable_valid hr
  obtain ⟨k, hk, hfind, hbefore, hat⟩ := find_ok h t xs hv key
  have hn := hv.1
  refine ⟨_, _, hfind, count_ok h t xs hv key, ?_⟩
  have h1 : (t.begin.op_add k).op_eq t.end_ = true ↔ k = xs.length := by
    simp [Iterator.op_eq, Iterator.op_add, SegmentTree.begin, SegmentTree.end_, Ptr.add, hn]
  have h2 : ((xs.count key : Nat) : Int) = 0 ↔ key ∉ xs := by
    rw [← List.count_eq_zero]
    omega
  rw [h1, h2]
  constructor
  · intro hkn hmem
    obtain ⟨j, hj⟩ := List.mem_iff_getElem?.1 hmem
    have hjl : j < xs.length := (List.getElem?_eq_some.1 hj).1
    exact hbefore j (by omega) hj
  · intro hnot
    by_contra hne
    have hlt : k < xs.length := by omega
    exact hnot (List.mem_iff_getElem?.2 ⟨k, hat hlt⟩)

theorem find_end_iff_count_zero_witness :
    Reachable sampleHeap sampleTree ∧
    count sampleHeap sampleTree (8 : Int) = some 0 ∧
    ∃ (it : Iterator) (c : Int), find sampleHeap sampleTree (8 : Int) = some it ∧
      count sampleHeap sampleTree (8 : Int) = some c ∧
      (it.op_eq sampleTree.end_ = true ↔ c = 0) :=
  ⟨sample_reachable, by decide,
    find_end_iff_count_zero sampleHeap sampleTree sample_reachable 8⟩

/-! ## `lower_bound`, `upper_bound` and `equal_range` -/

theorem lower_bound_loop_ok {T : Type} [LT T] [DecidableRel (LT.lt : T → T → Prop)]
    (h : Heap T) (a : Nat) (xs : List T) (ha : h[a]? = some (xs.map some)) (key : T) :
    ∀ (fuel i : Nat) (P : Int), P = i → i + fuel = xs.length →
      ∃ k : Nat, i ≤ k ∧ k ≤ xs.length ∧
        lower_bound_loop h ⟨⟨some a, (xs.length : Int)⟩⟩ key fuel ⟨⟨some a, P⟩⟩ =
          some ⟨⟨some a, (k : Int)⟩⟩ ∧
        (∀ j x, i ≤ j → j < k → xs[j]? = some x → x < key) ∧
        (∀ x, xs[k]? = some x → ¬ x < key) := by
  intro fuel
  induction fuel with
  | zero =>
    intro i P hP hi
    have e : P = (xs.length : Int) := by omega
    refine ⟨i, le_refl _, by omega, ?_, fun j x h1 h2 => by omega, fun x hx => ?_⟩
    · simp [lower_bound_loop, Iterator.op_ne, Iterator.op_eq, e, hP]
      omega
    · rw [List.getElem?_eq_none (by omega)] at hx
      cases hx
  | succ fuel ih =>
    intro i P hP hi
    have hlt : i < xs.length := by omega
    have hne : (⟨⟨some a, P⟩⟩ : Iterator).op_ne ⟨⟨some a, (xs.length : Int)⟩⟩ = true := by
      have : ¬ P = (xs.length : Int) := by omega
      simp [Iterator.op_ne, Iterator.op_eq, this]
    have hld : (⟨⟨some a, P⟩⟩ : Iterator).op_deref h = some xs[i] := by
      have hn : ¬ P < 0 := by omega
      have e : P.toNat = i := by omega
      simp [Iterator.op_deref, Heap.load, Heap.slot, ha, hn, e, hlt]
    rw [lower_bound_loop, if_pos hne, hld]
    simp only [Option.some_bind, Iterator.op_inc, Ptr.add]
    by_cases hk : xs[i] < key
    · obtain ⟨k, hk1, hk2, hfind, hbefore, hat⟩ := ih (i + 1) (P + 1) (by omega) (by omega)
      refine ⟨k, by omega, hk2, by rw [if_pos hk]; exact hfind, ?_, hat⟩
      intro j x h1 h2 hx
      by_cases hji : j = i
      · subst hji
        rw [List.getElem?_eq_getElem hlt] at hx
        cases hx
        exact hk
      · exact hbefore j x (by omega) h2 hx
    · refine ⟨i, le_refl _, by omega, by rw [if_neg hk, hP], fun j x h1 h2 => by omega, ?_⟩
      intro x hx
      rw [List.getElem?_eq_getElem hlt] at hx
      cases hx
      exact hk

theorem upper_bound_loop_ok {T : Type} [LE T] [DecidableRel (LE.le : T → T → Prop)]
    (h : Heap T) (a : Nat) (xs : List T) (ha : h[a]? = some (xs.map some)) (key : T) :
    ∀ (fuel i : Nat) (P : Int), P = i → i + fuel = xs.length →
      ∃ k : Nat, i ≤ k ∧ k ≤ xs.length ∧
        upper_bound_loop h ⟨⟨some a, (xs.length : Int)⟩⟩ key fuel ⟨⟨some a, P⟩⟩ =
          some ⟨⟨some a, (k : Int)⟩⟩ ∧
        (∀ j x, i ≤ j → j < k → xs[j]? = some x → x ≤ key) ∧
        (∀ x, xs[k]? = some x → ¬ x ≤ key) := by
  intro fuel
  induction fuel with
  | zero =>
    intro i P hP hi
    have e : P = (xs.length : Int) := by omega
    refine ⟨i, le_refl _, by omega, ?_, fun j x h1 h2 => by omega, fun x hx => ?_⟩
    · simp [upper_bound_loop, Iterator.op_ne, Iterator.op_eq, e, hP]
      omega
    · rw [List.getElem?_eq_none (by omega)] at hx
      cases hx
  | succ fuel ih =>
    intro i P hP hi
    have hlt : i < xs.length := by omega
    have hne : (⟨⟨some a, P⟩⟩ : Iterator).op_ne ⟨⟨some a, (xs.length : Int)⟩⟩ = true := by
      have : ¬ P = (xs.length : Int) := by omega
      simp [Iterator.op_ne, Iterator.op_eq, this]
    have hld : (⟨⟨some a, P⟩⟩ : Iterator).op_deref h = some xs[i] := by
      have hn : ¬ P < 0 := by omega
      have e : P.toNat = i := by omega
      simp [Iterator.op_deref, Heap.load, Heap.slot, ha, hn, e, hlt]
    rw [upper_bound_loop, if_pos hne, hld]
    simp only [Option.some_bind, Iterator.op_inc, Ptr.add]
    by_cases hk : xs[i] ≤ key
    · obtain ⟨k, hk1, hk2, hfind, hbefore, hat⟩ := ih (i + 1) (P + 1) (by omega) (by omega)
      refine ⟨k, by omega, hk2, by rw [if_pos hk]; exact hfind, ?_, hat⟩
      intro j x h1 h2 hx
      by_cases hji : j = i
      · subst hji
        rw [List.getElem?_eq_getElem hlt] at hx
        cases hx
        exact hk
      · exact hbefore j x (by omega) h2 hx
    · refine ⟨i, le_refl _, by omega, by rw [if_neg hk, hP], fun j x h1 h2 => by omega, ?_⟩
      intro x hx
      rw [List.getElem?_eq_getElem hlt] at hx
      cases hx
      exact hk

theorem empty_begin_end (t : SegmentTree) (hz : t.n_ = 0) : t.end_ = t.begin := by
  simp [SegmentTree.end_, SegmentTree.begin, hz, ptr_add_zero]

theorem lower_bound_ok {T : Type} [Add T] [LT T] [DecidableRel (LT.lt : T → T → Prop)]
    (h : Heap T) (t : SegmentTree) (xs : List T) (hv : Valid h t xs) (key : T) :
    ∃ k : Nat, k ≤ xs.length ∧ lower_bound h t key = some (t.begin.op_add k) ∧
      (∀ j x, j < k → xs[j]? = some x → x < key) ∧
      (∀ x, xs[k]? = some x → ¬ x < key) := by
  by_cases hne : xs = []
  · have hz : t.n_ = 0 := by rw [hv.1, hne]; rfl
    refine ⟨0, by omega, ?_, fun j x hj => by omega, fun x hx => ?_⟩
    · simp [lower_bound, lower_bound_loop, hz, empty_begin_end t hz, SegmentTree.begin,
        ptr_add_zero, Iterator.op_ne, Iterator.op_eq, Iterator.op_add]
    · rw [hne] at hx
      simp at hx
  · obtain ⟨a, b, tb, s, hc, _, _, ha, _⟩ := hv.2 hne
    have hn := hv.1
    have hend : t.end_ = ⟨⟨some a, (xs.length : Int)⟩⟩ := by
      simp [SegmentTree.end_, Ptr.add, hc, hn]
    have hbeg : t.begin = ⟨⟨some a, 0⟩⟩ := by
      simp [SegmentTree.begin, hc]
    have hfuel : t.n_.toNat = xs.length := by omega
    obtain ⟨k, _, hk2, hfind, hbefore, hat⟩ :=
      lower_bound_loop_ok h a xs ha key xs.length 0 0 rfl (by omega)
    refine ⟨k, hk2, ?_, fun j x hj => hbefore j x (by omega) hj, hat⟩
    rw [lower_bound, hend, hbeg, hfuel, hfind]
    simp [Iterator.op_add, Ptr.add]

theorem upper_bound_ok {T : Type} [Add T] [LE T] [DecidableRel (LE.le : T → T → Prop)]
    (h : Heap T) (t : SegmentTree) (xs : List T) (hv : Valid h t xs) (key : T) :
    ∃ k : Nat, k ≤ xs.length ∧ upper_bound h t key = some (t.begin.op_add k) ∧
      (∀ j x, j < k → xs[j]? = some x → x ≤ key) ∧
      (∀ x, xs[k]? = some x → ¬ x ≤ key) := by
  by_cases hne : xs = []
  · have hz : t.n_ = 0 := by rw [hv.1, hne]; rfl
    refine ⟨0, by omega, ?_, fun j x hj => by omega, fun x hx => ?_⟩
    · simp [upper_bound, upper_bound_loop, hz, empty_begin_end t hz, SegmentTree.begin,
        ptr_add_zero, Iterator.op_ne, Iterator.op_eq, Iterator.op_add]
    · rw [hne] at hx
      simp at hx
  · obtain ⟨a, b, tb, s, hc, _, _, ha, _⟩ := hv.2 hne
    have hn := hv.1
    have hend : t.end_ = ⟨⟨some a, (xs.length : Int)⟩⟩ := by
      simp [SegmentTree.end_, Ptr.add, hc, hn]
    have hbeg : t.begin = ⟨⟨some a, 0⟩⟩ := by
      simp [SegmentTree.begin, hc]
    have hfuel : t.n_.toNat = xs.length := by omega
    obtain ⟨k, _, hk2, hfind, hbefore, hat⟩ :=
      upper_bound_loop_ok h a xs ha key xs.length 0 0 rfl (by omega)
    refine ⟨k, hk2, ?_, fun j x hj => hbefore j x (by omega) hj, hat⟩
    rw [upper_bound, hend, hbeg, hfuel, hfind]
    simp [Iterator.op_add, Ptr.add]

theorem elems_sorted {T : Type} [Preorder T] (h : Heap T) (t : SegmentTree) (xs : List T)
    (he : Elems h t xs) (hp : List.Pairwise (· ≤ ·) xs) :
    ∀ (i j : Nat) (x y : T), i ≤ j → (j : Int) < t.n_ →
      elem h t i = some x → elem h t j = some y → x ≤ y := by
  intro i j x y hij hj hx hy
  have hn := he.1
  have hjl : j < xs.length := by omega
  have hil : i < xs.length := by omega
  rw [he.2 i hil, List.getElem?_eq_getElem hil] at hx
  rw [he.2 j hjl, List.getElem?_eq_getElem hjl] at hy
  cases hx
  cases hy
  by_cases e : i = j
  · subst e
    exact le_refl _
  · exact List.pairwise_iff_getElem.1 hp i j hil hjl (by omega)

theorem sorted_reachable : Reachable sortedHeap sortedTree :=
  @Reachable.from_range Int _ _ _ _ [] sortedHeap [2, 3, 3, 3, 4] sortedTree (by decide)

theorem sorted_elems : Elems sortedHeap sortedTree [2, 3, 3, 3, 4] := by
  obtain ⟨h1, t, he, hv, _⟩ := from_range_ok ([] : Heap Int) [2, 3, 3, 3, 4]
  have e : SegmentTree.from_range ([] : Heap Int) [2, 3, 3, 3, 4] =
      some (sortedHeap, sortedTree) := by decide
  rw [e] at he
  cases he
  exact valid_elems hv

theorem sorted_sample_sorted :
    ∀ (i j : Nat) (x y : Int), i ≤ j → (j : Int) < sortedTree.n_ →
      elem sortedHeap sortedTree i = some x → elem sortedHeap sortedTree j = some y → x ≤ y :=
  elems_sorted sortedHeap sortedTree [2, 3, 3, 3, 4] sorted_elems (by decide)

/-- C13: for every tree (sorted or not) and every key, `lower_bound(key)`,
`upper_bound(key)` and `equal_range(key)` all return, and `equal_range(key)` is the pair
whose first component is `lower_bound(key)` and whose second component is
`upper_bound(key)`. -/
theorem equal_range_pair {T : Type} [Add T] [IntCast T] [LE T]
    [DecidableRel (LE.le : T → T → Prop)] [LT T] [DecidableRel (LT.lt : T → T → Prop)]
    (h : Heap T) (t : SegmentTree) (hr : Reachable h t) (key : T) :
    ∃ lo hi : Iterator, lower_bound h t key = some lo ∧ upper_bound h t key = some hi ∧
      equal_range h t key = some (lo, hi) := by
  obtain ⟨xs, hv⟩ := reachable_valid hr
  obtain ⟨k1, _, hlb, _⟩ := lower_bound_ok h t xs hv key
  obtain ⟨k2, _, hub, _⟩ := upper_bound_ok h t xs hv key
  refine ⟨_, _, hlb, hub, ?_⟩
  rw [equal_range, hlb, hub]
  rfl

theorem equal_range_pair_witness :
    Reachable sampleHeap sampleTree ∧
    equal_range sampleHeap sampleTree (3 : Int) =
      some (sampleTree.begin, sampleTree.end_) ∧
    ∃ lo hi : Iterator, lower_bound sampleHeap sampleTree (3 : Int) = some lo ∧
      upper_bound sampleHeap sampleTree (3 : Int) = some hi ∧
      equal_range sampleHeap sampleTree (3 : Int) = some (lo, hi) :=
  ⟨sample_reachable, by decide, equal_range_pair sampleHeap sampleTree sample_reachable 3⟩

/-- C14: for every empty tree (`n_ == 0`, whatever its pointers and the heap) and every
key: `begin() == end()`, `count(key) == 0`, and `find(key)`, `lower_bound(key)`,
`upper_bound(key)` and both components of `equal_range(key)` are all equal to `end()`. -/
theorem empty_tree_queries {T : Type} [DecidableEq T] [LE T]
    [DecidableRel (LE.le : T → T → Prop)] [LT T] [DecidableRel (LT.lt : T → T → Prop)]
    (h : Heap T) (t : SegmentTree) (key : T) (hz : t.n_ = 0) :
    t.begin.op_eq t.end_ = true ∧ count h t key = some 0 ∧
    find h t key = some t.end_ ∧ lower_bound h t key = some t.end_ ∧
    upper_bound h t key = some t.end_ ∧ equal_range h t key = some (t.end_, t.end_) := by
  have hbe := empty_begin_end t hz
  have hlb : lower_bound h t key = some t.end_ := by
    simp [lower_bound, lower_bound_loop, hz, hbe, Iterator.op_ne, Iterator.op_eq]
  have hub : upper_bound h t key = some t.end_ := by
    simp [upper_bound, upper_bound_loop, hz, hbe, Iterator.op_ne, Iterator.op_eq]
  refine ⟨by simp [hbe, Iterator.op_eq], ?_, ?_, hlb, hub, ?_⟩
  · simp [count, count_loop, hz, hbe, Iterator.op_ne, Iterator.op_eq]
  · simp [find, find_loop, hz, hbe, Iterator.op_ne, Iterator.op_eq]
  · rw [equal_range, hlb, hub]
    rfl

theorem empty_tree_queries_witness :
    SegmentTree.new.n_ = 0 ∧
    (SegmentTree.new.begin.op_eq SegmentTree.new.end_ = true ∧
      count ([] : Heap Int) SegmentTree.new 1 = some 0 ∧
      find ([] : Heap Int) SegmentTree.new 1 = some SegmentTree.new.end_ ∧
      lower_bound ([] : Heap Int) SegmentTree.new 1 = some SegmentTree.new.end_ ∧
      upper_bound ([] : Heap Int) SegmentTree.new 1 = some SegmentTree.new.end_ ∧
      equal_range ([] : Heap Int) SegmentTree.new 1 =
        some (SegmentTree.new.end_, SegmentTree.new.end_)) :=
  ⟨rfl, empty_tree_queries ([] : Heap Int) SegmentTree.new 1 rfl⟩

/-! ## Iterators -/

theorem ptr_add_add (p : Ptr) (a b : Int) : (p.add a).add b = p.add (a + b) := by
  simp [Ptr.add, add_assoc]

theorem iterate_op_inc (k : Nat) (p : Ptr) :
    Nat.iterate Iterator.op_inc k ⟨p⟩ = ⟨p.add k⟩ := by
  induction k with
  | zero => simp [ptr_add_zero]
  | succ k ih =>
    rw [Function.iterate_succ_apply', ih, Iterator.op_inc, ptr_add_add]
    push_cast
    rfl

theorem iterate_rev_op_inc (k : Nat) (p : Ptr) :
    Nat.iterate ReverseIterator.op_inc k ⟨p⟩ = ⟨p.add (-(k : Int))⟩ := by
  induction k with
  | zero => simp [ptr_add_zero]
  | succ k ih =>
    rw [Function.iterate_succ_apply', ih, ReverseIterator.op_inc, ptr_add_add]
    push_cast
    congr 2
    omega

theorem elem_get {T : Type} {h : Heap T} {t : SegmentTree} {xs : List T}
    (he : Elems h t xs) (I : Int) (i : Nat) (hI : I = i) (hi : i < xs.length) :
    h.load (t.cont_.add I) = some xs[i] := by
  have := he.2 i hi
  rw [elem, List.getElem?_eq_getElem hi] at this
  rw [hI]
  exact this

/-- C15: for every tree and every `i` with `0 ≤ i < n`, dereferencing `begin() + i` yields
the element `cont_[i]`; and for every non-empty tree, dereferencing `rbegin()` yields the
same value as dereferencing `end() - 1`, the last element `cont_[n - 1]`. -/
theorem iterator_agreement {T : Type} [Add T] [IntCast T] [LE T]
    [DecidableRel (LE.le : T → T → Prop)] (h : Heap T) (t : SegmentTree)
    (hr : Reachable h t) :
    (∀ i : Int, 0 ≤ i → i < t.n_ →
      ∃ x : T, (t.begin.op_add i).op_deref h = some x ∧ elem h t i = some x) ∧
    (0 < t.n_ → ∃ x : T, t.rbegin.op_deref h = some x ∧
      (t.end_.op_sub 1).op_deref h = some x ∧ elem h t (t.n_ - 1) = some x) := by
  obtain ⟨xs, hv⟩ := reachable_valid hr
  have hel := valid_elems hv
  have hn := hv.1
  constructor
  · intro i h0 hi
    have hil : i.toNat < xs.length := by omega
    exact ⟨xs[i.toNat], elem_get hel i i.toNat (by omega) hil,
      elem_get hel i i.toNat (by omega) hil⟩
  · intro hpos
    have hil : xs.length - 1 < xs.length := by omega
    have hp : (t.cont_.add t.n_).add (-1) = t.cont_.add (t.n_ - 1) := by
      rw [ptr_add_add]
      rfl
    have hld := elem_get hel (t.n_ - 1) (xs.length - 1) (by omega) hil
    refine ⟨xs[xs.length - 1], ?_, ?_, hld⟩
    · rw [ReverseIterator.op_deref, SegmentTree.rbegin, hp]
      exact hld
    · rw [Iterator.op_deref, Iterator.op_sub, SegmentTree.end_, hp]
      exact hld

theorem iterator_agreement_witness :
    Reachable sampleHeap sampleTree ∧
    (sampleTree.begin.op_add 1).op_deref sampleHeap = some 1 ∧
    sampleTree.rbegin.op_deref sampleHeap = some 3 ∧
    ((∀ i : Int, 0 ≤ i → i < sampleTree.n_ →
      ∃ x : Int, (sampleTree.begin.op_add i).op_deref sampleHeap = some x ∧
        elem sampleHeap sampleTree i = some x) ∧
    (0 < sampleTree.n_ → ∃ x : Int, sampleTree.rbegin.op_deref sampleHeap = some x ∧
      (sampleTree.end_.op_sub 1).op_deref sampleHeap = some x ∧
      elem sampleHeap sampleTree (sampleTree.n_ - 1) = some x)) :=
  ⟨sample_reachable, by decide, by decide,
    iterator_agreement sampleHeap sampleTree sample_reachable⟩

/-- C16: for every tree, whose elements are the sequence `xs` of length `n`: stepping a
forward cursor from `begin()` with prefix `++` reaches `end()` after exactly `n` steps (not
before), and the value dereferenced after `k < n` steps is `xs[k]`; stepping a reverse
cursor from `rbegin()` with prefix `++` reaches `rend()` after exactly `n` steps (not
before), and the value dereferenced after `k < n` steps is `xs[n - 1 - k]`. -/
theorem traversal {T : Type} [Add T] [IntCast T] [LE T]
    [DecidableRel (LE.le : T → T → Prop)] (h : Heap T) (t : SegmentTree)
    (hr : Reachable h t) :
    ∃ xs : List T, Elems h t xs ∧
      Nat.iterate Iterator.op_inc xs.length t.begin = t.end_ ∧
      (∀ k : Nat, k < xs.length →
        (Nat.iterate Iterator.op_inc k t.begin).op_ne t.end_ = true ∧
        (Nat.iterate Iterator.op_inc k t.begin).op_deref h = xs[k]?) ∧
      Nat.iterate ReverseIterator.op_inc xs.length t.rbegin = t.rend ∧
      (∀ k : Nat, k < xs.length →
        (Nat.iterate ReverseIterator.op_inc k t.rbegin).op_ne t.rend = true ∧
        (Nat.iterate ReverseIterator.op_inc k t.rbegin).op_deref h =
          xs[xs.length - 1 - k]?) := by
  obtain ⟨xs, hv⟩ := reachable_valid hr
  have hel := valid_elems hv
  have hn := hv.1
  refine ⟨xs, hel, ?_, ?_, ?_, ?_⟩
  · rw [SegmentTree.begin, iterate_op_inc, SegmentTree.end_, hn]
  · intro k hk
    rw [SegmentTree.begin, iterate_op_inc]
    constructor
    · simp [Iterator.op_ne, Iterator.op_eq, SegmentTree.end_, Ptr.add, hn]
      omega
    · rw [List.getElem?_eq_getElem hk]
      exact elem_get hel k k rfl hk
  · rw [SegmentTree.rbegin, iterate_rev_op_inc, SegmentTree.rend, ptr_add_add, ptr_add_add,
      hn]
    exact congrArg ReverseIterator.mk (congrArg t.cont_.add (by omega))
  · intro k hk
    rw [SegmentTree.rbegin, iterate_rev_op_inc, ptr_add_add, ptr_add_add]
    constructor
    · simp [ReverseIterator.op_ne, ReverseIterator.op_eq, SegmentTree.rend, Ptr.add, hn]
      omega
    · have hlast : xs.length - 1 - k < xs.length := by omega
      rw [List.getElem?_eq_getElem hlast]
      exact elem_get hel _ (xs.length - 1 - k) (by omega) hlast

theorem traversal_witness :
    Reachable sampleHeap sampleTree ∧
    Nat.iterate Iterator.op_inc 3 sampleTree.begin = sampleTree.end_ ∧
    (Nat.iterate ReverseIterator.op_inc 1 sampleTree.rbegin).op_deref sampleHeap = some 1 ∧
    ∃ xs : List Int, Elems sampleHeap sampleTree xs ∧
      Nat.iterate Iterator.op_inc xs.length sampleTree.begin = sampleTree.end_ ∧
      (∀ k : Nat, k < xs.length →
        (Nat.iterate Iterator.op_inc k sampleTree.begin).op_ne sampleTree.end_ = true ∧
        (Nat.iterate Iterator.op_inc k sampleTree.begin).op_deref sampleHeap = xs[k]?) ∧
      Nat.iterate ReverseIterator.op_inc xs.length sampleTree.rbegin = sampleTree.rend ∧
      (∀ k : Nat, k < xs.length →
        (Nat.iterate ReverseIterator.op_inc k sampleTree.rbegin).op_ne sampleTree.rend = true ∧
        (Nat.iterate ReverseIterator.op_inc k sampleTree.rbegin).op_deref sampleHeap =
          xs[xs.length - 1 - k]?) :=
  ⟨sample_reachable, by decide, by decide, traversal sampleHeap sampleTree sample_reachable⟩

/-- C17 (failing input): for the reverse cursor `rbegin()` of the tree built from
`[3, 1, 3]`, at buffer position `2`: prefix `++` moves it to position `1` and prefix `--`
to position `3`, but postfix `++` (whose body steps with `--*this`) leaves it at position
`3` and postfix `--` (whose body steps with `++*this`) at position `1`; so prefix and
postfix `++` do not leave a reverse cursor at the same position.  The copies returned by the
postfix forms are at the old position. -/
theorem reverse_postfix_steps_backwards :
    sampleTree.rbegin.p_it_ = sampleTree.cont_.add 2 ∧
    sampleTree.rbegin.op_inc.p_it_ = sampleTree.cont_.add 1 ∧
    sampleTree.rbegin.op_dec.p_it_ = sampleTree.cont_.add 3 ∧
    sampleTree.rbegin.op_post_inc.2.p_it_ = sampleTree.cont_.add 3 ∧
    sampleTree.rbegin.op_post_dec.2.p_it_ = sampleTree.cont_.add 1 ∧
    sampleTree.rbegin.op_post_inc.2 ≠ sampleTree.rbegin.op_inc ∧
    sampleTree.rbegin.op_post_inc.1 = sampleTree.rbegin ∧
    sampleTree.rbegin.op_post_dec.1 = sampleTree.rbegin := by
  decide

/-- C18 (failing input): for the reverse cursor `rbegin()` of the tree built from
`[3, 1, 3]`, `rbegin() + 1`, `rbegin() + 2` and `rbegin() - 1` are all the `bool` value
`true` (the shifted pointer converted to the declared return type), not cursors at the
shifted positions; the forward `begin() + 1` and `end() - 1` are cursors at positions `1`
and `2`. -/
theorem reverse_offset_returns_bool :
    sampleTree.rbegin.op_add 1 = true ∧ sampleTree.rbegin.op_add 2 = true ∧
    sampleTree.rbegin.op_sub 1 = true ∧
    (sampleTree.begin.op_add 1).p_it_ = sampleTree.cont_.add 1 ∧
    (sampleTree.end_.op_sub 1).p_it_ = sampleTree.cont_.add 2 := by
  decide

/-! ## The invariant of the tree buffer -/

theorem covers_node {T : Type} [Add T] (tb : Block T) (xs : List T) (s0 : T)
    (h0 : Node tb xs 0 0 (xs.length - 1) s0) {v l r : Nat}
    (hc : Covers xs.length v l r) : ∃ s : T, Node tb xs v l r s := by
  induction hc with
  | root => exact ⟨s0, h0⟩
  | @left v l r _ hlt ih =>
    obtain ⟨s, hn⟩ := ih
    cases hn with
    | leaf _ _ => omega
    | inner _ hl _ _ => exact ⟨_, hl⟩
  | @right v l r _ hlt ih =>
    obtain ⟨s, hn⟩ := ih
    cases hn with
    | leaf _ _ => omega
    | inner _ _ hr _ => exact ⟨_, hr⟩

theorem update_total {T : Type} [Add T] [IntCast T] [LE T]
    [DecidableRel (LE.le : T → T → Prop)] (h : Heap T) (t : SegmentTree) (xs : List T)
    (hv : Valid h t xs) (index : Int) (newVal : T) (h0 : 0 ≤ index) (hn : index < t.n_) :
    ∃ h1 : Heap T, update h t index newVal = some h1 := by
  by_cases hg : (index : T) ≤ newVal
  · obtain ⟨h1, hu, _⟩ := update_ok h t xs hv index newVal h0 hn hg
    exact ⟨h1, hu⟩
  · exact ⟨h, by rw [update, if_neg (fun hh => hg hh.2)]⟩

theorem Node.brute {T : Type} [Add T] [Zero T]
    (hassoc : ∀ a b c : T, a + b + c = a + (b + c)) (hzero : ∀ a : T, 0 + a = a)
    (hzero2 : ∀ a : T, a + 0 = a) {tb : Block T} {xs : List T} {v l r : Nat} {s : T}
    (hn : Node tb xs v l r s) : s = bruteSum xs (l : Int) ((r : Int) + 1) := by
  letI inst : AddMonoid T :=
    { add := fun a b => a + b
      zero := 0
      add_assoc := hassoc
      zero_add := hzero
      add_zero := hzero2
      nsmul := nsmulRec }
  have h1 : s = rsum xs l (r + 1) := @Node.val T inst tb xs v l r s hn
  have h2 : bruteSum xs (l : Int) ((r : Int) + 1) =
      rsum xs (l : Int).toNat ((r : Int) + 1).toNat := @bruteSum_eq T inst xs l (r + 1)
  rw [h1, h2]
  congr 2

/-- C19 (amended): in every state of a non-empty tree that the class can produce (in
particular after construction from a non-empty sequence followed by any number of
`update(i, v)` calls with `0 ≤ i < n`, each of which returns and leads to such a state
again), every node `v` of the implicit tree reachable from the root, covering `[l, r]`,
satisfies: if `l == r` then `tree_[v] == cont_[l]`, otherwise
`tree_[v] == tree_[2 * v + 1] + tree_[2 * v + 2]`.  When the `+` of the element type is
associative and has `0` as neutral element, `tree_[v]` is moreover the brute-force sum of the
elements `l, ..., r`. -/
theorem tree_invariant {T : Type} [Add T] [Zero T] [IntCast T] [LE T]
    [DecidableRel (LE.le : T → T → Prop)] (h : Heap T) (t : SegmentTree)
    (hr : Reachable h t) (hpos : 0 < t.n_) :
    (∀ v l r : Nat, Covers t.n_.toNat v l r →
      l ≤ r ∧ (r : Int) < t.n_ ∧
      (l = r → ∃ x : T, treeAt h t v = some x ∧ elem h t l = some x) ∧
      (l < r → ∃ a b : T, treeAt h t (2 * (v : Int) + 1) = some a ∧
        treeAt h t (2 * (v : Int) + 2) = some b ∧ treeAt h t v = some (a + b)) ∧
      ((∀ a b c : T, a + b + c = a + (b + c)) → (∀ a : T, 0 + a = a) →
        (∀ a : T, a + 0 = a) →
        ∃ xs : List T, Elems h t xs ∧
          treeAt h t v = some (bruteSum xs (l : Int) ((r : Int) + 1)))) ∧
    (∀ (index : Int) (newVal : T), 0 ≤ index → index < t.n_ →
      ∃ h1 : Heap T, update h t index newVal = some h1 ∧ Reachable h1 t) := by
  obtain ⟨xs, hv⟩ := reachable_valid hr
  have hne : xs ≠ [] := valid_nonempty hv hpos
  have hel := valid_elems hv
  have hn := hv.1
  obtain ⟨a, b, tb, s0, hc, ht, hab, ha, hb, htl, hnode⟩ := hv.2 hne
  constructor
  · intro v l r hcov
    have hlen : t.n_.toNat = xs.length := by omega
    rw [hlen] at hcov
    obtain ⟨s, hnd⟩ := covers_node tb xs s0 hnode hcov
    have hbd := hnd.bounds
    have hroot : treeAt h t v = some s := by
      rw [treeAt, ht]
      exact load_val h b tb hb v v rfl s hnd.slot
    refine ⟨hbd.1, by omega, ?_, ?_, fun hassoc hzero hzero2 => ⟨xs, hel, ?_⟩⟩
    · intro e
      subst e
      cases hnd with
      | leaf hx _ =>
        refine ⟨s, hroot, ?_⟩
        rw [hel.2 l hbd.2]
        exact hx
      | inner hlt _ _ _ => omega
    · intro hlt
      cases hnd with
      | leaf _ _ => omega
      | @inner _ _ _ sa sb _ hl hr2 _ =>
        refine ⟨sa, sb, ?_, ?_, hroot⟩
        · rw [treeAt, ht]
          exact load_val h b tb hb _ (2 * v + 1) (by omega) sa hl.slot
        · rw [treeAt, ht]
          exact load_val h b tb hb _ (2 * v + 2) (by omega) sb hr2.slot
    · rw [hroot, ← Node.brute hassoc hzero hzero2 hnd]
  · intro index newVal h0 hi
    obtain ⟨h1, hu⟩ := update_total h t xs hv index newVal h0 hi
    exact ⟨h1, hu, Reachable.update hr hu⟩

theorem tree_invariant_witness :
    Reachable sampleHeap sampleTree ∧ 0 < sampleTree.n_ ∧
    Covers sampleTree.n_.toNat 1 0 1 ∧ treeAt sampleHeap sampleTree 1 = some 4 ∧
    ((∀ v l r : Nat, Covers sampleTree.n_.toNat v l r →
      l ≤ r ∧ (r : Int) < sampleTree.n_ ∧
      (l = r → ∃ x : Int, treeAt sampleHeap sampleTree v = some x ∧
        elem sampleHeap sampleTree l = some x) ∧
      (l < r → ∃ a b : Int, treeAt sampleHeap sampleTree (2 * (v : Int) + 1) = some a ∧
        treeAt sampleHeap sampleTree (2 * (v : Int) + 2) = some b ∧
        treeAt sampleHeap sampleTree v = some (a + b)) ∧
      ∃ xs : List Int, Elems sampleHeap sampleTree xs ∧
        treeAt sampleHeap sampleTree v = some (bruteSum xs (l : Int) ((r : Int) + 1))) ∧
    (∀ (index : Int) (newVal : Int), 0 ≤ index → index < sampleTree.n_ →
      ∃ h1 : Heap Int, update sampleHeap sampleTree index newVal = some h1 ∧
        Reachable h1 sampleTree)) := by
  have H := tree_invariant sampleHeap sampleTree sample_reachable (by decide)
  refine ⟨sample_reachable, by decide, Covers.left Covers.root (by decide), by decide,
    fun v l r hc => ?_, H.2⟩
  obtain ⟨p1, p2, p3, p4, p5⟩ := H.1 v l r hc
  exact ⟨p1, p2, p3, p4, p5 Int.add_assoc Int.zero_add Int.add_zero⟩

theorem float_reachable : Reachable floatHeap floatTree :=
  @Reachable.from_range F32 _ _ _ _ [] floatHeap floatElems floatTree (by decide)

theorem float_elems : Elems floatHeap floatTree floatElems := by
  obtain ⟨h1, t, he, hv, _⟩ := from_range_ok ([] : Heap F32) floatElems
  have e : SegmentTree.from_range ([] : Heap F32) floatElems =
      some (floatHeap, floatTree) := by decide
  rw [e] at he
  cases he
  exact valid_elems hv

/-- C19 (counterexample): the `float` tree built from `2^26, 0, -2^26, 1`, a state made by
a constructor.  The root, node `0`, covers `[0, 3]` and holds
`tree_[0] == tree_[1] + tree_[2]`, that is `2^26 + -2^26 == 0`, because the right half
`-2^26 + 1` was rounded to `-2^26`; the brute-force sum of the elements `0, ..., 3` is
`1`.  So `tree_[0]` is not the sum of the elements that the root covers. -/
theorem float_root_not_sum :
    Reachable floatHeap floatTree ∧ 0 < floatTree.n_ ∧
    Covers floatTree.n_.toNat 0 0 3 ∧
    treeAt floatHeap floatTree 1 = some ⟨67108864⟩ ∧
    treeAt floatHeap floatTree 2 = some ⟨-67108864⟩ ∧
    treeAt floatHeap floatTree 0 = some ⟨0⟩ ∧
    Elems floatHeap floatTree floatElems ∧
    bruteSum floatElems ((0 : Nat) : Int) (((3 : Nat) : Int) + 1) = ⟨1⟩ ∧
    ¬ ∃ xs : List F32, Elems floatHeap floatTree xs ∧
      treeAt floatHeap floatTree ((0 : Nat) : Int) =
        some (bruteSum xs ((0 : Nat) : Int) (((3 : Nat) : Int) + 1)) := by
  refine ⟨float_reachable, by decide, Covers.root, by decide, by decide, by decide,
    float_elems, by decide, ?_⟩
  rintro ⟨xs, hx, hs⟩
  have e : xs = floatElems := elems_unique hx float_elems
  rw [e] at hs
  exact absurd hs (by decide)

/-! ## The indices of the tree buffer that are accessed -/

theorem build_writes_root (fuel : Nat) (V L R : Int) (hf : 0 < fuel) :
    V ∈ build_writes fuel V L R := by
  cases fuel with
  | zero => omega
  | succ fuel =>
    rw [build_writes]
    by_cases e : L = R
    · rw [if_pos e]
      simp
    · rw [if_neg e]
      simp

theorem build_writes_bound (N : Nat) :
    ∀ (fuel : Nat) (V L R : Int) (v l r : Nat), V = v → L = l → R = r → l ≤ r →
      Fits N v (r - l + 1) →
      ∀ j ∈ build_writes fuel V L R, 0 ≤ j ∧ j < (N : Int) := by
  intro fuel
  induction fuel with
  | zero =>
    intro V L R v l r _ _ _ _ _ j hj
    simp [build_writes] at hj
  | succ fuel ih =>
    intro V L R v l r hV hL hR hlr hfit j hj
    have hvlt := hfit.lt
    rw [build_writes] at hj
    by_cases e : L = R
    · rw [if_pos e] at hj
      simp at hj
      omega
    · rw [if_neg e] at hj
      have hmid := mid_cast L R l r hL hR hlr
      simp only [List.mem_append, List.mem_singleton] at hj
      rcases hj with (hj | hj) | hj
      · exact ih (V * 2 + 1) L (L + (R - L).tdiv 2) (2 * v + 1) l (l + (r - l) / 2)
          (by omega) hL hmid (by omega)
          (hfit.child (by omega) _ _ (by omega) (by omega)) j hj
      · exact ih (V * 2 + 2) (L + (R - L).tdiv 2 + 1) R (2 * v + 2)
          (l + (r - l) / 2 + 1) r (by omega) (by omega) hR (by omega)
          (hfit.child (by omega) _ _ (by omega) (by omega)) j hj
      · omega

theorem node_writes_built {T : Type} [Add T] (tb : Block T) (xs : List T) :
    ∀ (fuel : Nat) (V L R : Int) (v l r : Nat) (s : T), V = v → L = l → R = r →
      Node tb xs v l r s →
      ∀ j ∈ build_writes fuel V L R, ∃ x : T, 0 ≤ j ∧ tb[j.toNat]? = some (some x) := by
  intro fuel
  induction fuel with
  | zero =>
    intro V L R v l r s _ _ _ _ j hj
    simp [build_writes] at hj
  | succ fuel ih =>
    intro V L R v l r s hV hL hR hn j hj
    rw [build_writes] at hj
    cases hn with
    | leaf _ hv =>
      rw [if_pos (by omega)] at hj
      simp at hj
      have e : j.toNat = v := by omega
      exact ⟨s, by omega, by rw [e]; exact hv⟩
    | @inner _ _ _ sa sb hlt hl hr2 hv =>
      rw [if_neg (by omega)] at hj
      have hmid := mid_cast L R l r hL hR (by omega)
      simp only [List.mem_append, List.mem_singleton] at hj
      rcases hj with (hj | hj) | hj
      · exact ih (V * 2 + 1) L (L + (R - L).tdiv 2) (2 * v + 1) l (l + (r - l) / 2) sa
          (by omega) hL hmid hl j hj
      · exact ih (V * 2 + 2) (L + (R - L).tdiv 2 + 1) R (2 * v + 2)
          (l + (r - l) / 2 + 1) r sb (by omega) (by omega) hR hr2 j hj
      · have e : j.toNat = v := by omega
        exact ⟨sa + sb, by omega, by rw [e]; exact hv⟩

theorem sum_reads_written :
    ∀ (fuel : Nat) (QL QR V L R : Int) (ql qe l r : Nat),
      QL = ql → QR = (qe : Int) - 1 → L = l → R = r → l ≤ r → r - l < fuel →
      l ≤ ql → qe ≤ r + 1 →
      ∀ j ∈ sum_util_reads fuel QL QR V L R, j ∈ build_writes fuel V L R := by
  intro fuel
  induction fuel with
  | zero =>
    intro QL QR V L R ql qe l r _ _ _ _ _ hf
    omega
  | succ fuel ih =>
    intro QL QR V L R ql qe l r hQL hQR hL hR hlr hf hlq hqr j hj
    rw [sum_util_reads] at hj
    by_cases hgt : QL > QR
    · rw [if_pos hgt] at hj
      simp at hj
    · rw [if_neg hgt] at hj
      by_cases hex : QL = L ∧ QR = R
      · rw [if_pos hex] at hj
        simp at hj
        rw [hj]
        exact build_writes_root (fuel + 1) V L R (by omega)
      · rw [if_neg hex] at hj
        have hne : ¬ L = R := by omega
        have hmid := mid_cast L R l r hL hR hlr
        rw [build_writes, if_neg hne]
        simp only [List.mem_append, List.mem_singleton] at hj ⊢
        rcases hj with hj | hj
        · exact Or.inl (Or.inl (ih QL (min QR (L + (R - L).tdiv 2)) (V * 2 + 1) L
            (L + (R - L).tdiv 2) ql (min qe (l + (r - l) / 2 + 1)) l (l + (r - l) / 2)
            hQL (by omega) hL hmid (by omega) (by omega) hlq (by omega) j hj))
        · exact Or.inl (Or.inr (ih (max QL (L + (R - L).tdiv 2 + 1)) QR (V * 2 + 2)
            (L + (R - L).tdiv 2 + 1) R (max ql (l + (r - l) / 2 + 1)) qe
            (l + (r - l) / 2 + 1) r (by omega) hQR (by omega) hR (by omega) (by omega)
            (by omega) hqr j hj))

theorem update_writes_written (I : Int) (i : Nat) (hI : I = i) :
    ∀ (fuel : Nat) (V L R : Int) (l r : Nat), L = l → R = r → l ≤ r → r - l < fuel →
      l ≤ i → i ≤ r →
      ∀ j ∈ update_util_writes I fuel V L R, j ∈ build_writes fuel V L R := by
  intro fuel
  induction fuel with
  | zero =>
    intro V L R l r _ _ _ hf
    omega
  | succ fuel ih =>
    intro V L R l r hL hR hlr hf hli hir j hj
    rw [update_util_writes] at hj
    rw [build_writes]
    by_cases e : L = R
    · rw [if_pos e] at hj ⊢
      exact hj
    · rw [if_neg e] at hj ⊢
      have hmid := mid_cast L R l r hL hR hlr
      simp only [List.mem_append, List.mem_singleton] at hj ⊢
      rcases hj with hj | hj
      · by_cases hside : I ≤ L + (R - L).tdiv 2
        · rw [if_pos hside] at hj
          exact Or.inl (Or.inl (ih (V * 2 + 1) L (L + (R - L).tdiv 2) l (l + (r - l) / 2)
            hL hmid (by omega) (by omega) hli (by omega) j hj))
        · rw [if_neg hside] at hj
          exact Or.inl (Or.inr (ih (V * 2 + 2) (L + (R - L).tdiv 2 + 1) R
            (l + (r - l) / 2 + 1) r (by omega) hR (by omega) (by omega) (by omega) hir
            j hj))
      · exact Or.inr hj

theorem update_reads_written (I : Int) (i : Nat) (hI : I = i) :
    ∀ (fuel : Nat) (V L R : Int) (l r : Nat), L = l → R = r → l ≤ r → r - l < fuel →
      l ≤ i → i ≤ r →
      ∀ j ∈ update_util_reads I fuel V L R, j ∈ build_writes fuel V L R := by
  intro fuel
  induction fuel with
  | zero =>
    intro V L R l r _ _ _ hf
    omega
  | succ fuel ih =>
    intro V L R l r hL hR hlr hf hli hir j hj
    rw [update_util_reads] at hj
    rw [build_writes]
    by_cases e : L = R
    · rw [if_pos e] at hj
      simp at hj
    · rw [if_neg e] at hj ⊢
      have hmid := mid_cast L R l r hL hR hlr
      have hroot1 := build_writes_root fuel (V * 2 + 1) L (L + (R - L).tdiv 2) (by omega)
      have hroot2 := build_writes_root fuel (V * 2 + 2) (L + (R - L).tdiv 2 + 1) R
        (by omega)
      simp only [List.mem_append, List.mem_singleton, List.mem_cons, List.mem_nil_iff,
        or_false] at hj ⊢
      rcases hj with hj | hj | hj
      · by_cases hside : I ≤ L + (R - L).tdiv 2
        · rw [if_pos hside] at hj
          exact Or.inl (Or.inl (ih (V * 2 + 1) L (L + (R - L).tdiv 2) l (l + (r - l) / 2)
            hL hmid (by omega) (by omega) hli (by omega) j hj))
        · rw [if_neg hside] at hj
          exact Or.inl (Or.inr (ih (V * 2 + 2) (L + (R - L).tdiv 2 + 1) R
            (l + (r - l) / 2 + 1) r (by omega) hR (by omega) (by omega) (by omega) hir
            j hj))
      · rw [hj]
        exact Or.inl (Or.inl hroot1)
      · rw [hj]
        exact Or.inl (Or.inr hroot2)

/-- C20: for every `n ≥ 1` and every tree of `n` elements that the class can produce: every
tree-buffer index written by `build(0, 0, n - 1)` lies in `[0, 4n)` and holds a value; every
index read by `sum(l, r)` with `0 ≤ l < r ≤ n`, and every index written or read by
`update(i, v)` with `0 ≤ i < n`, is an index that `build` wrote; the tree buffer has exactly
the slots `[0, 4n)`; and `sum` and `update` return, that is, they never index the tree
buffer out of bounds and never read an unbuilt slot.  The constructor, which runs `build`
on a fresh buffer of `4n` indeterminate slots, returns as well. -/
theorem tree_access_safe {T : Type} [AddMonoid T] [IntCast T] [LE T]
    [DecidableRel (LE.le : T → T → Prop)] (n : Nat) (hn : 1 ≤ n) (h : Heap T)
    (t : SegmentTree) (hr : Reachable h t) (hsize : t.n_ = n) :
    (∀ j ∈ build_writes n 0 0 ((n : Int) - 1),
      0 ≤ j ∧ j < 4 * (n : Int) ∧ ∃ x : T, treeAt h t j = some x) ∧
    (∀ l r : Int, 0 ≤ l → l < r → r ≤ n →
      (∀ j ∈ sum_util_reads n l (r - 1) 0 0 ((n : Int) - 1),
        j ∈ build_writes n 0 0 ((n : Int) - 1)) ∧
      ∃ s : T, sum h t l r = some s) ∧
    (∀ (i : Int) (v : T), 0 ≤ i → i < n →
      (∀ j ∈ update_util_writes i n 0 0 ((n : Int) - 1),
        j ∈ build_writes n 0 0 ((n : Int) - 1)) ∧
      (∀ j ∈ update_util_reads i n 0 0 ((n : Int) - 1),
        j ∈ build_writes n 0 0 ((n : Int) - 1)) ∧
      ∃ h1 : Heap T, update h t i v = some h1) ∧
    (∀ j : Int, (h.slot (t.tree_.add j)).isSome = true ↔ 0 ≤ j ∧ j < 4 * (n : Int)) ∧
    (∀ (h0 : Heap T) (xs : List T), xs.length = n →
      ∃ (h1 : Heap T) (t1 : SegmentTree), SegmentTree.from_range h0 xs = some (h1, t1)) := by
  obtain ⟨xs, hv⟩ := reachable_valid hr
  have hne : xs ≠ [] := valid_nonempty hv (by omega)
  have hlen := hv.1
  have hxn : xs.length = n := by omega
  obtain ⟨a, b, tb, s0, hc, ht, hab, ha, hb, htl, hnode⟩ := hv.2 hne
  have hfit : Fits (4 * n) 0 (n - 1 - 0 + 1) := by
    have e : n - 1 - 0 + 1 = n := by omega
    rw [e]
    exact fits_root n (by omega)
  refine ⟨?_, ?_, ?_, ?_, ?_⟩
  · intro j hj
    have hb1 := build_writes_bound (4 * n) n 0 0 ((n : Int) - 1) 0 0 (n - 1) rfl rfl
      (by omega) (by omega) hfit j hj
    obtain ⟨x, h0, hx⟩ := node_writes_built tb xs n 0 0 ((n : Int) - 1) 0 0 (xs.length - 1)
      s0 rfl rfl (by omega) hnode j hj
    refine ⟨hb1.1, by omega, x, ?_⟩
    rw [treeAt, ht]
    exact load_val h b tb hb j j.toNat (by omega) x hx
  · intro l r h0 hlr hrn
    refine ⟨?_, _, sum_ok h t xs hv l r h0 (by omega)⟩
    exact sum_reads_written n l (r - 1) 0 0 ((n : Int) - 1) l.toNat r.toNat 0 (n - 1)
      (by omega) (by omega) rfl (by omega) (by omega) (by omega) (by omega) (by omega)
  · intro i v h0 hi
    refine ⟨?_, ?_, update_total h t xs hv i v h0 (by omega)⟩
    · exact update_writes_written i i.toNat (by omega) n 0 0 ((n : Int) - 1) 0 (n - 1)
        rfl (by omega) (by omega) (by omega) (by omega) (by omega)
    · exact update_reads_written i i.toNat (by omega) n 0 0 ((n : Int) - 1) 0 (n - 1)
        rfl (by omega) (by omega) (by omega) (by omega) (by omega)
  · intro j
    rw [ht]
    by_cases hneg : j < 0
    · have hs : h.slot ((⟨some b, 0⟩ : Ptr).add j) = none := by
        simp [Heap.slot, Ptr.add, hb, hneg]
      rw [hs]
      constructor
      · intro hh
        simp at hh
      · intro hh
        omega
    · have e : ((j.toNat : Nat) : Int) = j := by omega
      rw [slot_at h b tb hb j j.toNat e.symm]
      constructor
      · intro hs
        rcases Option.isSome_iff_exists.1 hs with ⟨x, hx⟩
        have := (List.getElem?_eq_some.1 hx).1
        omega
      · intro hbnd
        have hlt : j.toNat < tb.length := by omega
        rw [List.getElem?_eq_getElem hlt]
        rfl
  · intro h0 ys hys
    obtain ⟨h1, t1, he, _⟩ := from_range_ok h0 ys
    exact ⟨h1, t1, he⟩

theorem tree_access_safe_witness :
    (1 : Nat) ≤ 3 ∧ Reachable sampleHeap sampleTree ∧ sampleTree.n_ = (3 : Nat) ∧
    build_writes 3 0 0 2 = [3, 4, 1, 2, 0] ∧ sum_util_reads 3 1 2 0 0 2 = [4, 2] ∧
    update_util_writes 1 3 0 0 2 = [4, 1, 0] ∧
    ((∀ j ∈ build_writes 3 0 0 (((3 : Nat) : Int) - 1),
      0 ≤ j ∧ j < 4 * ((3 : Nat) : Int) ∧ ∃ x : Int, treeAt sampleHeap sampleTree j = some x) ∧
    (∀ l r : Int, 0 ≤ l → l < r → r ≤ (3 : Nat) →
      (∀ j ∈ sum_util_reads 3 l (r - 1) 0 0 (((3 : Nat) : Int) - 1),
        j ∈ build_writes 3 0 0 (((3 : Nat) : Int) - 1)) ∧
      ∃ s : Int, sum sampleHeap sampleTree l r = some s) ∧
    (∀ (i : Int) (v : Int), 0 ≤ i → i < (3 : Nat) →
      (∀ j ∈ update_util_writes i 3 0 0 (((3 : Nat) : Int) - 1),
        j ∈ build_writes 3 0 0 (((3 : Nat) : Int) - 1)) ∧
      (∀ j ∈ update_util_reads i 3 0 0 (((3 : Nat) : Int) - 1),
        j ∈ build_writes 3 0 0 (((3 : Nat) : Int) - 1)) ∧
      ∃ h1 : Heap Int, update sampleHeap sampleTree i v = some h1) ∧
    (∀ j : Int, (sampleHeap.slot (sampleTree.tree_.add j)).isSome = true ↔
      0 ≤ j ∧ j < 4 * ((3 : Nat) : Int)) ∧
    (∀ (h0 : Heap Int) (xs : List Int), xs.length = 3 →
      ∃ (h1 : Heap Int) (t1 : SegmentTree),
        SegmentTree.from_range h0 xs = some (h1, t1))) :=
  ⟨by decide, sample_reachable, by decide, by decide, by decide, by decide,
    tree_access_safe 3 (by decide) sampleHeap sampleTree sample_reachable (by decide)⟩

/-! ## The effect of `update` -/

theorem count_between {T : Type} [DecidableEq T] (xs : List T) (key : T) (p q : Nat)
    (hpq : p ≤ q) (hq : q ≤ xs.length)
    (hin : ∀ (i : Nat) (x : T), p ≤ i → i < q → xs[i]? = some x → x = key)
    (hout : ∀ (i : Nat) (x : T), i < p ∨ q ≤ i → xs[i]? = some x → x ≠ key) :
    xs.count key = q - p := by
  have e1 : xs = xs.take p ++ xs.drop p := (List.take_append_drop p xs).symm
  have e2 : xs.drop p = (xs.drop p).take (q - p) ++ xs.drop q := by
    have := (List.take_append_drop (q - p) (xs.drop p)).symm
    rw [List.drop_drop] at this
    have e : p + (q - p) = q := by omega
    rw [e] at this
    exact this
  have hc : xs.count key =
      (xs.take p ++ ((xs.drop p).take (q - p) ++ xs.drop q)).count key := by
    rw [← e2, ← e1]
  have c1 : (xs.take p).count key = 0 := by
    apply List.count_eq_zero.2
    intro hm
    obtain ⟨n, hn⟩ := List.mem_iff_getElem?.1 hm
    rw [List.getElem?_take] at hn
    by_cases hnp : n < p
    · rw [if_pos hnp] at hn
      exact hout n key (Or.inl hnp) hn rfl
    · rw [if_neg hnp] at hn
      cases hn
  have c2 : ((xs.drop p).take (q - p)).count key = q - p := by
    have hl : ((xs.drop p).take (q - p)).length = q - p := by
      rw [List.length_take, List.length_drop]
      omega
    have hall : ∀ b ∈ (xs.drop p).take (q - p), key = b := by
      intro b hb
      obtain ⟨n, hn⟩ := List.mem_iff_getElem?.1 hb
      rw [List.getElem?_take] at hn
      by_cases hnq : n < q - p
      · rw [if_pos hnq, List.getElem?_drop] at hn
        exact (hin (p + n) b (by omega) (by omega) hn).symm
      · rw [if_neg hnq] at hn
        cases hn
    rw [List.count_eq_length.2 hall, hl]
  have c3 : (xs.drop q).count key = 0 := by
    apply List.count_eq_zero.2
    intro hm
    obtain ⟨n, hn⟩ := List.mem_iff_getElem?.1 hm
    rw [List.getElem?_drop] at hn
    exact hout (q + n) key (Or.inr (by omega)) hn rfl
  rw [hc, List.count_append, List.count_append, c1, c2, c3]
  omega

/-- C23: for every tree whose element sequence is non-decreasing and every key,
`equal_range(key)` returns the pair of cursors `(begin() + lo, begin() + hi)` with
`lo ≤ hi ≤ n`; an index `i` in `[0, n)` lies in `[lo, hi)` exactly when `cont_[i] == key`;
and `hi - lo == count(key)`. -/
theorem equal_range_sorted {T : Type} [Add T] [IntCast T] [LinearOrder T] [DecidableEq T]
    (h : Heap T) (t : SegmentTree) (hr : Reachable h t) (key : T)
    (hs : ∀ (i j : Nat) (x y : T), i ≤ j → (j : Int) < t.n_ →
      elem h t i = some x → elem h t j = some y → x ≤ y) :
    ∃ lo hi : Nat, lo ≤ hi ∧ (hi : Int) ≤ t.n_ ∧
      equal_range h t key = some (t.begin.op_add lo, t.begin.op_add hi) ∧
      (∀ i : Nat, (i : Int) < t.n_ → ((lo ≤ i ∧ i < hi) ↔ elem h t i = some key)) ∧
      count h t key = some ((hi - lo : Nat) : Int) := by
  obtain ⟨xs, hv⟩ := reachable_valid hr
  obtain ⟨p, hp, hlb, hbp, hatp⟩ := lower_bound_ok h t xs hv key
  obtain ⟨q, hq, hub, hbq, hatq⟩ := upper_bound_ok h t xs hv key
  have hel := valid_elems hv
  have hn := hv.1
  have hget : ∀ (i : Nat) (hi : i < xs.length), elem h t i = some xs[i] := by
    intro i hi
    rw [hel.2 i hi, List.getElem?_eq_getElem hi]
  have hpq : p ≤ q := by
    by_contra hlt
    have hql : q < xs.length := by omega
    have h1 : xs[q] < key := hbp q xs[q] (by omega) (List.getElem?_eq_getElem hql)
    exact hatq xs[q] (List.getElem?_eq_getElem hql) (le_of_lt h1)
  have hge : ∀ (i : Nat) (hi : i < xs.length), p ≤ i → key ≤ xs[i] := by
    intro i hi hpi
    have hpl : p < xs.length := by omega
    have h1 : key ≤ xs[p] := not_lt.1 (hatp xs[p] (List.getElem?_eq_getElem hpl))
    exact le_trans h1 (hs p i xs[p] xs[i] hpi (by omega) (hget p hpl) (hget i hi))
  have hgt : ∀ (i : Nat) (hi : i < xs.length), q ≤ i → key < xs[i] := by
    intro i hi hqi
    have hql : q < xs.length := by omega
    have h1 : key < xs[q] := not_le.1 (hatq xs[q] (List.getElem?_eq_getElem hql))
    exact lt_of_lt_of_le h1 (hs q i xs[q] xs[i] hqi (by omega) (hget q hql) (hget i hi))
  have hin : ∀ (i : Nat) (x : T), p ≤ i → i < q → xs[i]? = some x → x = key := by
    intro i x hpi hiq hx
    have hil : i < xs.length := by omega
    have h1 := hbq i x hiq hx
    rw [List.getElem?_eq_getElem hil] at hx
    cases hx
    exact le_antisymm h1 (hge i hil hpi)
  have hout : ∀ (i : Nat) (x : T), i < p ∨ q ≤ i → xs[i]? = some x → x ≠ key := by
    intro i x hio hx
    have hil : i < xs.length := (List.getElem?_eq_some.1 hx).1
    rcases hio with hip | hqi
    · exact ne_of_lt (hbp i x hip hx)
    · rw [List.getElem?_eq_getElem hil] at hx
      cases hx
      exact ne_of_gt (hgt i hil hqi)
  refine ⟨p, q, hpq, by omega, ?_, ?_, ?_⟩
  · rw [equal_range, hlb, hub]
    rfl
  · intro i hi
    have hil : i < xs.length := by omega
    rw [hget i hil]
    constructor
    · rintro ⟨hpi, hiq⟩
      rw [hin i xs[i] hpi hiq (List.getElem?_eq_getElem hil)]
    · intro hx
      cases hx
      by_contra hnot
      exact hout i xs[i] (by omega) (List.getElem?_eq_getElem hil) rfl
  · rw [count_ok h t xs hv key, count_between xs key p q hpq hq hin hout]

theorem equal_range_sorted_witness :
    Reachable sortedHeap sortedTree ∧
    (∀ (i j : Nat) (x y : Int), i ≤ j → (j : Int) < sortedTree.n_ →
      elem sortedHeap sortedTree i = some x → elem sortedHeap sortedTree j = some y →
      x ≤ y) ∧
    equal_range sortedHeap sortedTree (3 : Int) =
      some (sortedTree.begin.op_add 1, sortedTree.begin.op_add 4) ∧
    count sortedHeap sortedTree (3 : Int) = some 3 ∧
    ∃ lo hi : Nat, lo ≤ hi ∧ (hi : Int) ≤ sortedTree.n_ ∧
      equal_range sortedHeap sortedTree (3 : Int) =
        some (sortedTree.begin.op_add lo, sortedTree.begin.op_add hi) ∧
      (∀ i : Nat, (i : Int) < sortedTree.n_ →
        ((lo ≤ i ∧ i < hi) ↔ elem sortedHeap sortedTree i = some 3)) ∧
      count sortedHeap sortedTree (3 : Int) = some ((hi - lo : Nat) : Int) :=
  ⟨sorted_reachable, sorted_sample_sorted, by decide, by decide,
    equal_range_sorted sortedHeap sortedTree sorted_reachable 3 sorted_sample_sorted⟩

end st
